import Mathlib

/-!
Shallow embedding of `src/utils/eclat_algorithm.py` (class `ECLATAlgorithm`).

Modelling conventions:
* an Item is a natural number; a Transaction is a duplicate-free set of
  items (`Finset ℕ`); the transaction database is a `List (Finset ℕ)`
  (indices are the Python transaction ids);
* Python floats are modelled by exact rationals `ℚ` (support values are
  plain ratios of counts);
* a Python dict keyed by frozensets is modelled by an association list
  `List (Finset ℕ × ℚ)` whose key order is the dict's insertion order;
* code that can raise `ZeroDivisionError` is `Option`-valued: `none`
  models the raised exception, `some` a normal return.
-/

namespace Eclat

attribute [local semireducible] Rat.mul Rat.inv Rat.add Rat.sub

/-- The table type returned by `find_frequent_itemsets`
(Python: dict mapping frozenset -> float, in insertion order). -/
abbrev Table := List (Finset ℕ × ℚ)

/-- The canonical (ascending) element list of a `Finset ℕ` — the
enumeration order the embedding uses wherever Python iterates over a
set or dict in unspecified order.  (Implemented as a bounded range
filter so the kernel can evaluate it.) -/
def finsetToList (S : Finset ℕ) : List ℕ :=
  (List.range (S.sup id + 1)).filter (fun a => decide (a ∈ S))

/-- Division `a / n` as Python performs it on `count / len(transactions)`:
raises (`none`) when the divisor is zero. -/
def safeDiv (a n : ℕ) : Option ℚ :=
  if n = 0 then none else some ((a : ℚ) / (n : ℚ))

/-- Effectful filter-map over a list in the `Option` monad: `f` returns
`none` to model a raised exception, `some none` to skip the element and
`some (some b)` to keep `b`.  Elements are processed left to right, as the
Python `for` loops do. -/
def optFilterMap (f : α → Option (Option β)) : List α → Option (List β)
  | [] => some []
  | a :: as =>
    match f a with
    | none => none
    | some none => optFilterMap f as
    | some (some b) => (optFilterMap f as).map (fun bs => b :: bs)

/-- `_create_tid_lists`: the tid-list of one item, i.e. the ascending list
of indices of the transactions containing it (the Python code appends
`tid` for each transaction containing the item, in transaction order). -/
def tidList (txs : List (Finset ℕ)) (a : ℕ) : List ℕ :=
  (List.range txs.length).filter (fun i => a ∈ txs.getD i ∅)

/-- The intersection of the tid-lists of the members of `S`
(lines 58-62 of the source: start from the first item's tid-list and
intersect with each remaining item's list); an index survives iff it lies
in every member's tid-list. -/
def tidIntersection (txs : List (Finset ℕ)) (S : Finset ℕ) : List ℕ :=
  (List.range txs.length).filter (fun i => decide (∀ a ∈ S, i ∈ tidList txs a))

/-- `len(tid_intersection)` for an itemset. -/
def supportCount (txs : List (Finset ℕ)) (S : Finset ℕ) : ℕ :=
  (tidIntersection txs S).length

/-- The number of transactions of which `S` is a subset — the count
computed by the direct scan of `_calculate_consequent_support` (lines
167-170), and the reference measure the support claims are stated
with. -/
def containCount (txs : List (Finset ℕ)) (S : Finset ℕ) : ℕ :=
  txs.countP (fun t => decide (S ⊆ t))

/-- The keys of the Python dict `tid_lists`: every item occurring in some
transaction, in a canonical (sorted) enumeration order. -/
def itemsOf (txs : List (Finset ℕ)) : List ℕ :=
  finsetToList (txs.foldr (fun t acc => t ∪ acc) ∅)

/-- The frequent 1-itemset loop (lines 35-40): for each item of the tid
index, compute `support = len(tid_list)/len(transactions)` (a possible
division by zero) and keep the item when
`len(tid_list) >= min_support_count`. -/
def freq1 (txs : List (Finset ℕ)) (minCount : ℚ) : Option (List (ℕ × ℚ)) :=
  optFilterMap (fun a =>
    (safeDiv (tidList txs a).length txs.length).map (fun sup =>
      if ((tidList txs a).length : ℚ) ≥ minCount then some (a, sup) else none))
    (itemsOf txs)

/-- One step of `_generate_candidates`' double loop: all unions of two
list elements taken at positions `i < j`. -/
def pairUnions : List (Finset ℕ) → List (Finset ℕ)
  | [] => []
  | x :: xs => xs.map (fun y => x ∪ y) ++ pairUnions xs

/-- `_generate_candidates`: unions of two frontier itemsets having
exactly `k` elements, deduplicated (the Python code collects them in a
set). -/
def generateCandidates (frontier : List (Finset ℕ)) (k : ℕ) : List (Finset ℕ) :=
  ((pairUnions frontier).filter (fun u => u.card = k)).dedup

/-- The per-level support filter (lines 54-67): for each candidate,
compute `support = len(tid_intersection)/len(transactions)` and keep it
when `len(tid_intersection) >= min_support_count`. -/
def levelSupports (txs : List (Finset ℕ)) (minCount : ℚ)
    (cands : List (Finset ℕ)) : Option Table :=
  optFilterMap (fun S =>
    (safeDiv (supportCount txs S) txs.length).map (fun sup =>
      if ((supportCount txs S : ℚ)) ≥ minCount then some (S, sup) else none))
    cands

/-- The `for k in range(2, max_length + 1)` loop (lines 48-73), as a
recursion on the number of remaining levels.  `k` is the current level;
the loop breaks when candidate generation or the support filter comes up
empty, otherwise the table grows and the frontier becomes the new
level's frequent itemsets. -/
def eclatLoop (txs : List (Finset ℕ)) (minCount : ℚ) :
    ℕ → ℕ → List (Finset ℕ) → Table → Option Table
  | 0, _, _, table => some table
  | fuel + 1, k, frontier, table =>
    let cands := generateCandidates frontier k
    if cands.isEmpty then some table
    else
      (levelSupports txs minCount cands).bind (fun freqK =>
        if freqK.isEmpty then some table
        else eclatLoop txs minCount fuel (k + 1) (freqK.map Prod.fst) (table ++ freqK))

/-- `find_frequent_itemsets(transactions, min_support, max_length)`:
level-1 itemsets seed the table and the frontier, then the level loop
runs for `k = 2 .. max_length`. -/
def find_frequent_itemsets (txs : List (Finset ℕ)) (min_support : ℚ)
    (max_length : ℕ) : Option Table :=
  let minCount : ℚ := (txs.length : ℚ) * min_support
  (freq1 txs minCount).bind (fun f1 =>
    let tbl1 : Table := f1.map (fun p => (({p.1} : Finset ℕ), p.2))
    eclatLoop txs minCount (max_length - 1) 2 (tbl1.map Prod.fst) tbl1)

/-- An association rule as built at lines 152-158 of the source
(`antecedent`, `consequent`, `support`, `confidence`, `lift`). -/
structure Rule where
  antecedent : Finset ℕ
  consequent : Finset ℕ
  support : ℚ
  confidence : ℚ
  lift : ℚ
deriving DecidableEq

/-- `frequent_itemsets.get(S, 0)`: the value stored for key `S`, or `0`
when the key is absent. -/
def tblGet (tbl : Table) (S : Finset ℕ) : ℚ :=
  match tbl.find? (fun p => p.1 = S) with
  | some p => p.2
  | none => 0

/-- `_calculate_consequent_support`: count the transactions of which
`consequent` is a subset, then divide by `len(transactions)` — a division
that raises when the transaction list is empty. -/
def calcConsequentSupport (consequent : Finset ℕ) (txs : List (Finset ℕ)) :
    Option ℚ :=
  safeDiv (containCount txs consequent) txs.length

/-- The antecedent enumeration of lines 126-128: for each size
`r = 1 .. len(itemset)-1`, every `r`-combination of the itemset's
elements (enumerated here from the sorted element list). -/
def antecedentsOf (S : Finset ℕ) : List (Finset ℕ) :=
  (List.range' 1 (S.card - 1)).flatMap (fun r =>
    (List.sublistsLen r (finsetToList S)).map List.toFinset)

/-- The body of the antecedent loop (lines 128-158) for one antecedent:
skip when the consequent is empty or the antecedent's support is not in
the table (`get` returns 0); otherwise keep the rule when
`confidence >= min_confidence`, computing the consequent's support from
the table or — when `get` returns 0 there — by the direct transaction
scan, and `lift = confidence / consequent_support` when that support is
positive, else `0`. -/
def ruleOfSplit (tbl : Table) (txs : List (Finset ℕ)) (minConf : ℚ)
    (S : Finset ℕ) (sup : ℚ) (A : Finset ℕ) : Option (Option Rule) :=
  let C := S \ A
  if C = ∅ then some none
  else
    let asup := tblGet tbl A
    if asup = 0 then some none
    else
      let conf := sup / asup
      if conf ≥ minConf then
        ((if tblGet tbl C = 0 then calcConsequentSupport C txs
          else some (tblGet tbl C)).map (fun cs =>
            some ⟨A, C, sup, conf, if cs > 0 then conf / cs else 0⟩))
      else some none

/-- The outer loop of `generate_association_rules` (lines 119-158):
iterate over the table's entries in order, skip itemsets of size `< 2`,
and collect the rules of every antecedent split.  The first argument is
the whole table (used for all lookups), the last the entries still to be
visited. -/
def rulesAux (tbl : Table) (txs : List (Finset ℕ)) (minConf : ℚ) :
    Table → Option (List Rule)
  | [] => some []
  | (S, sup) :: rest =>
    if S.card < 2 then rulesAux tbl txs minConf rest
    else
      (optFilterMap (ruleOfSplit tbl txs minConf S sup) (antecedentsOf S)).bind
        (fun rs => (rulesAux tbl txs minConf rest).map (fun rest' => rs ++ rest'))

/-- The rule list of `generate_association_rules` before the final sort,
in generation order. -/
def rulesUnsorted (tbl : Table) (txs : List (Finset ℕ)) (minConf : ℚ) :
    Option (List Rule) :=
  rulesAux tbl txs minConf tbl

/-- Stable insertion of a rule into a list sorted by confidence
descending: the rule goes after every earlier rule of confidence
strictly greater, and before the first one of confidence `≤` its own —
so rules of equal confidence keep their generation order, as Python's
stable `list.sort(reverse=True)` does. -/
def insertByConf (r : Rule) : List Rule → List Rule
  | [] => [r]
  | x :: xs =>
    if r.confidence < x.confidence then x :: insertByConf r xs else r :: x :: xs

/-- `rules.sort(key=confidence, reverse=True)`: a stable sort by
confidence descending. -/
def sortByConfDesc : List Rule → List Rule
  | [] => []
  | r :: rs => insertByConf r (sortByConfDesc rs)

/-- `generate_association_rules(frequent_itemsets, transactions,
min_confidence)`: the generated rules, sorted by confidence
descending. -/
def generate_association_rules (tbl : Table) (txs : List (Finset ℕ))
    (min_confidence : ℚ) : Option (List Rule) :=
  (rulesUnsorted tbl txs min_confidence).map sortByConfDesc

/-- The consequent support a generated rule ends up using: the value
stored in the table when `get` finds a non-zero one, otherwise the
direct transaction scan divided by the number of transactions. -/
def specConsequentSupport (tbl : Table) (txs : List (Finset ℕ))
    (C : Finset ℕ) : ℚ :=
  if tblGet tbl C = 0 then (containCount txs C : ℚ) / (txs.length : ℚ)
  else tblGet tbl C

/-- The rule that `generate_association_rules` builds for an itemset
`S` (of support `sup`), an antecedent `A` with table support `asup`,
and the transaction list used for the consequent-support fallback. -/
def specRule (tbl : Table) (txs : List (Finset ℕ)) (S : Finset ℕ)
    (sup : ℚ) (A : Finset ℕ) (asup : ℚ) : Rule :=
  let conf := sup / asup
  let cs := specConsequentSupport tbl txs (S \ A)
  ⟨A, S \ A, sup, conf, if cs > 0 then conf / cs else 0⟩

/-- A recommendation as built at lines 198-204 of the source. -/
structure Recommendation where
  recommended_items : Finset ℕ
  confidence : ℚ
  lift : ℚ
  support : ℚ
  antecedent : Finset ℕ
deriving DecidableEq

/-- The rule scan of lines 188-204: a rule applies when its antecedent
is a subset of the input set or the input set is a subset of the
antecedent; the recommended items are the consequent minus the input
set, and rules whose recommended set is empty are dropped. -/
def candidateRecs (input : Finset ℕ) (rules : List Rule) :
    List Recommendation :=
  rules.filterMap (fun r =>
    if r.antecedent ⊆ input ∨ input ⊆ r.antecedent then
      let recItems := r.consequent \ input
      if recItems ≠ ∅ then
        some ⟨recItems, r.confidence, r.lift, r.support, r.antecedent⟩
      else none
    else none)

/-- One `unique_recommendations` dict update (lines 208-211): if the
recommended item-set is already a key, replace its entry (in place) only
when the new confidence is strictly greater; otherwise append a new
entry. -/
def updateRec : List Recommendation → Recommendation → List Recommendation
  | [], r => [r]
  | x :: xs, r =>
    if x.recommended_items = r.recommended_items then
      (if r.confidence > x.confidence then r else x) :: xs
    else x :: updateRec xs r

/-- The deduplication loop of lines 207-211, with the dict modelled as
an association list in key-insertion order. -/
def dedupRecs (l : List Recommendation) : List Recommendation :=
  l.foldl updateRec []

/-- The strict lexicographic comparison of the sort keys
`(confidence, lift)`. -/
def recKeyLT (a b : Recommendation) : Prop :=
  a.confidence < b.confidence ∨
    (a.confidence = b.confidence ∧ a.lift < b.lift)

instance : DecidablePred fun p : Recommendation × Recommendation => recKeyLT p.1 p.2 :=
  fun _ => by unfold recKeyLT; infer_instance

instance (a b : Recommendation) : Decidable (recKeyLT a b) := by
  unfold recKeyLT; infer_instance

/-- Stable insertion for `sorted(key=(confidence, lift), reverse=True)`. -/
def insertByKey (r : Recommendation) : List Recommendation → List Recommendation
  | [] => [r]
  | x :: xs => if recKeyLT r x then x :: insertByKey r xs else r :: x :: xs

/-- The stable descending sort of line 214-218. -/
def sortRecs : List Recommendation → List Recommendation
  | [] => []
  | r :: rs => insertByKey r (sortRecs rs)

/-- The deduplicated, sorted recommendation list (everything of
`get_recommendations` except the final `[:top_n]` slice). -/
def recommendationsAll (input : Finset ℕ) (rules : List Rule) :
    List Recommendation :=
  sortRecs (dedupRecs (candidateRecs input rules))

/-- Python's `lst[:n]` for an `int` `n`: the first `n` elements when
`n ≥ 0`, everything but the last `|n|` elements when `n < 0`. -/
def pySlice (l : List α) (n : ℤ) : List α :=
  if 0 ≤ n then l.take n.toNat else l.take (l.length - (-n).toNat)

/-- `get_recommendations(input_items, association_rules, top_n)`. -/
def get_recommendations (input : Finset ℕ) (rules : List Rule)
    (top_n : ℤ) : List Recommendation :=
  pySlice (recommendationsAll input rules) top_n

/-- The instance fields of `ECLATAlgorithm` (`__init__`):
`frequent_itemsets` and `item_support`, the latter a dict from items to
supports modelled as an association list in key-insertion order. -/
structure ECLATState where
  frequent_itemsets : Table
  item_support : List (ℕ × ℚ)
deriving DecidableEq

/-- The state of a freshly constructed `ECLATAlgorithm` object. -/
def initState : ECLATState := ⟨[], []⟩

/-- Python dict assignment `d[a] = v`: overwrite in place when the key
is present, append otherwise. -/
def dictInsertQ : List (ℕ × ℚ) → ℕ → ℚ → List (ℕ × ℚ)
  | [], a, v => [(a, v)]
  | (b, w) :: rest, a, v =>
    if b = a then (b, v) :: rest else (b, w) :: dictInsertQ rest a v

/-- `find_frequent_itemsets` as a transformer of the object's state:
the returned table is also assigned to `self.frequent_itemsets` (a fresh
dict, lines 43 and 72), while `self.item_support` is only written to,
one `self.item_support[item] = support` per frequent 1-itemset (line
40) — it is never cleared, so entries of earlier calls survive. -/
def find_frequent_itemsetsST (st : ECLATState) (txs : List (Finset ℕ))
    (min_support : ℚ) (max_length : ℕ) : Option (ECLATState × Table) :=
  let minCount : ℚ := (txs.length : ℚ) * min_support
  (freq1 txs minCount).bind (fun f1 =>
    (find_frequent_itemsets txs min_support max_length).map (fun tbl =>
      (⟨tbl, f1.foldl (fun d p => dictInsertQ d p.1 p.2) st.item_support⟩, tbl)))

/-- Verification-side predicate: the itemsets the level-wise search can
reach — the support count clears the threshold and every member occurs
in some transaction. -/
def goodSet (txs : List (Finset ℕ)) (minCount : ℚ) (S : Finset ℕ) : Prop :=
  minCount ≤ (containCount txs S : ℚ) ∧ ∀ a ∈ S, ∃ t ∈ txs, a ∈ t

/-! ### Basic lemmas about the counting primitives -/

theorem mem_finsetToList {S : Finset ℕ} {a : ℕ} : a ∈ finsetToList S ↔ a ∈ S := by
  rw [finsetToList, List.mem_filter, List.mem_range]
  constructor
  · rintro ⟨_, h⟩; exact of_decide_eq_true h
  · intro h
    refine ⟨?_, decide_eq_true h⟩
    have := Finset.le_sup (f := id) h
    simp only [id] at this
    omega

theorem finsetToList_nodup (S : Finset ℕ) : (finsetToList S).Nodup :=
  (List.nodup_range _).filter _

theorem finsetToList_sorted (S : Finset ℕ) : (finsetToList S).Sorted (· ≤ ·) :=
  (List.pairwise_le_range _).filter _

theorem finsetToList_toFinset (S : Finset ℕ) : (finsetToList S).toFinset = S := by
  ext a
  rw [List.mem_toFinset, mem_finsetToList]

theorem finsetToList_length (S : Finset ℕ) : (finsetToList S).length = S.card := by
  rw [← finsetToList_toFinset S, List.toFinset_card_of_nodup (finsetToList_nodup S),
    finsetToList_toFinset]

theorem finsetToList_sublist {A S : Finset ℕ} (h : A ⊆ S) :
    List.Sublist (finsetToList A) (finsetToList S) := by
  have hrange : finsetToList A =
      (List.range (S.sup id + 1)).filter (fun a => decide (a ∈ A)) := by
    rw [finsetToList]
    have hsup : A.sup id + 1 ≤ S.sup id + 1 :=
      Nat.succ_le_succ (Finset.sup_mono h)
    obtain ⟨d, hd⟩ := Nat.exists_eq_add_of_le hsup
    conv_rhs => rw [hd, List.range_add]
    rw [List.filter_append]
    have hnil : ((List.range d).map (A.sup id + 1 + ·)).filter
        (fun a => decide (a ∈ A)) = [] := by
      rw [List.filter_eq_nil_iff]
      intro a ha
      rcases List.mem_map.mp ha with ⟨i, _, rfl⟩
      intro hmem
      have := Finset.le_sup (f := id) (of_decide_eq_true hmem)
      simp only [id] at this
      omega
    rw [hnil, List.append_nil]
  rw [hrange]
  apply List.monotone_filter_right
  intro a ha
  exact decide_eq_true (h (of_decide_eq_true ha))

theorem safeDiv_of_ne {n : ℕ} (a : ℕ) (h : n ≠ 0) :
    safeDiv a n = some ((a : ℚ) / (n : ℚ)) := by
  simp [safeDiv, h]

theorem optFilterMap_eq_filterMap {f : α → Option (Option β)} {g : α → Option β} :
    ∀ {l : List α}, (∀ a ∈ l, f a = some (g a)) →
      optFilterMap f l = some (l.filterMap g)
  | [], _ => rfl
  | a :: as, h => by
    have ha : f a = some (g a) := h a (List.mem_cons_self a as)
    have ih := optFilterMap_eq_filterMap (l := as)
      (fun x hx => h x (List.mem_cons_of_mem a hx))
    cases hg : g a with
    | none => simp [optFilterMap, ha, hg, ih, List.filterMap_cons, hg]
    | some b => simp [optFilterMap, ha, hg, ih, List.filterMap_cons]

theorem countP_eq_range (p : Finset ℕ → Bool) :
    ∀ txs : List (Finset ℕ),
      txs.countP p = ((List.range txs.length).filter (fun i => p (txs.getD i ∅))).length
  | [] => rfl
  | t :: ts => by
    have ih := countP_eq_range p ts
    rw [List.countP_cons, List.length_cons, List.range_succ_eq_map,
      List.filter_cons]
    simp only [List.getD_eq_getElem?_getD] at ih ⊢
    by_cases h : p t <;>
      simp [h, List.filter_map, Function.comp_def, ih]

theorem containCount_eq_range (txs : List (Finset ℕ)) (S : Finset ℕ) :
    containCount txs S =
      ((List.range txs.length).filter (fun i => decide (S ⊆ txs.getD i ∅))).length :=
  countP_eq_range _ txs

theorem mem_tidList {txs : List (Finset ℕ)} {a i : ℕ} :
    i ∈ tidList txs a ↔ i < txs.length ∧ a ∈ txs.getD i ∅ := by
  simp [tidList]

theorem supportCount_eq_containCount (txs : List (Finset ℕ)) (S : Finset ℕ) :
    supportCount txs S = containCount txs S := by
  rw [supportCount, tidIntersection, containCount_eq_range]
  congr 1
  apply List.filter_congr
  intro i hi
  rw [List.mem_range] at hi
  rw [decide_eq_decide]
  constructor
  · intro h a ha
    exact (mem_tidList.mp (h a ha)).2
  · intro h a ha
    exact mem_tidList.mpr ⟨hi, h ha⟩

theorem tidList_length_eq (txs : List (Finset ℕ)) (a : ℕ) :
    (tidList txs a).length = containCount txs ({a} : Finset ℕ) := by
  rw [containCount_eq_range, tidList]
  congr 1
  apply List.filter_congr
  intro i _
  rw [Bool.eq_iff_iff, decide_eq_true_iff, decide_eq_true_iff]
  simp [Finset.singleton_subset_iff]

theorem containCount_mono {T S : Finset ℕ} (txs : List (Finset ℕ)) (h : T ⊆ S) :
    containCount txs S ≤ containCount txs T := by
  apply List.countP_mono_left
  intro t _ ht
  rw [decide_eq_true_iff] at ht ⊢
  exact h.trans ht

theorem containCount_le_length (txs : List (Finset ℕ)) (S : Finset ℕ) :
    containCount txs S ≤ txs.length :=
  List.countP_le_length _

theorem containCount_pos_iff {txs : List (Finset ℕ)} {S : Finset ℕ} :
    0 < containCount txs S ↔ ∃ t ∈ txs, S ⊆ t := by
  rw [containCount, List.countP_pos_iff]
  simp

theorem mem_foldr_union (txs : List (Finset ℕ)) (a : ℕ) :
    a ∈ txs.foldr (fun t acc => t ∪ acc) ∅ ↔ ∃ t ∈ txs, a ∈ t := by
  induction txs with
  | nil => simp
  | cons t ts ih => simp [ih]

theorem mem_itemsOf {txs : List (Finset ℕ)} {a : ℕ} :
    a ∈ itemsOf txs ↔ ∃ t ∈ txs, a ∈ t := by
  rw [itemsOf, mem_finsetToList, mem_foldr_union]

theorem itemsOf_nodup (txs : List (Finset ℕ)) : (itemsOf txs).Nodup :=
  finsetToList_nodup _

/-! ### Candidate generation -/

theorem mem_pairUnions_sound {l : List (Finset ℕ)} {u : Finset ℕ} :
    u ∈ pairUnions l → ∃ A ∈ l, ∃ B ∈ l, u = A ∪ B := by
  induction l with
  | nil => intro h; simp [pairUnions] at h
  | cons x xs ih =>
    intro h
    rw [pairUnions, List.mem_append] at h
    rcases h with h | h
    · rcases List.mem_map.mp h with ⟨y, hy, rfl⟩
      exact ⟨x, List.mem_cons_self x xs, y, List.mem_cons_of_mem x hy, rfl⟩
    · rcases ih h with ⟨A, hA, B, hB, rfl⟩
      exact ⟨A, List.mem_cons_of_mem x hA, B, List.mem_cons_of_mem x hB, rfl⟩

theorem pairUnions_complete {l : List (Finset ℕ)} {A B : Finset ℕ}
    (hA : A ∈ l) (hB : B ∈ l) (hne : A ≠ B) : A ∪ B ∈ pairUnions l := by
  induction l with
  | nil => simp at hA
  | cons x xs ih =>
    rw [pairUnions, List.mem_append]
    rcases List.mem_cons.mp hA with rfl | hA'
    · left
      rcases List.mem_cons.mp hB with rfl | hB'
      · exact absurd rfl hne
      · exact List.mem_map.mpr ⟨B, hB', rfl⟩
    · rcases List.mem_cons.mp hB with rfl | hB'
      · left
        refine List.mem_map.mpr ⟨A, hA', ?_⟩
        exact Finset.union_comm A B ▸ rfl
      · exact Or.inr (ih hA' hB')

theorem mem_generateCandidates {frontier : List (Finset ℕ)} {k : ℕ} {u : Finset ℕ} :
    u ∈ generateCandidates frontier k ↔ u ∈ pairUnions frontier ∧ u.card = k := by
  rw [generateCandidates, List.mem_dedup, List.mem_filter]
  simp

theorem generateCandidates_nodup (frontier : List (Finset ℕ)) (k : ℕ) :
    (generateCandidates frontier k).Nodup :=
  List.nodup_dedup _

theorem generateCandidates_nil (k : ℕ) : generateCandidates [] k = [] :=
  rfl

/-! ### The shape of the level-wise filters -/

theorem mem_filterMap_if {p : α → Prop} [DecidablePred p] {w : α → β}
    {l : List α} {a : α} {b : β} :
    (a, b) ∈ l.filterMap (fun x => if p x then some (x, w x) else none) ↔
      a ∈ l ∧ p a ∧ b = w a := by
  rw [List.mem_filterMap]
  constructor
  · rintro ⟨x, hx, hif⟩
    by_cases h : p x
    · rw [if_pos h, Option.some_inj, Prod.mk.injEq] at hif
      rcases hif with ⟨rfl, rfl⟩
      exact ⟨hx, h, rfl⟩
    · rw [if_neg h] at hif; exact absurd hif (by simp)
  · rintro ⟨ha, hp, rfl⟩
    exact ⟨a, ha, by rw [if_pos hp]⟩

theorem map_fst_filterMap_if {p : α → Prop} [DecidablePred p] {w : α → β} :
    ∀ l : List α,
      (l.filterMap (fun x => if p x then some (x, w x) else none)).map Prod.fst =
        l.filter (fun x => decide (p x))
  | [] => rfl
  | x :: xs => by
    have ih := map_fst_filterMap_if (p := p) (w := w) xs
    rw [List.filterMap_cons, List.filter_cons]
    by_cases h : p x
    · rw [if_pos h, if_pos (by simpa using h), List.map_cons, ih]
    · rw [if_neg h, if_neg (by simpa using h), ih]

theorem mem_map_fst {l : List (α × β)} {a : α} :
    a ∈ l.map Prod.fst ↔ ∃ b, (a, b) ∈ l := by
  rw [List.mem_map]
  constructor
  · rintro ⟨⟨x, y⟩, hxy, rfl⟩
    exact ⟨y, hxy⟩
  · rintro ⟨b, hb⟩
    exact ⟨(a, b), hb, rfl⟩

theorem freq1_eq (txs : List (Finset ℕ)) (minCount : ℚ) (hne : txs.length ≠ 0) :
    freq1 txs minCount = some ((itemsOf txs).filterMap (fun a =>
      if ((tidList txs a).length : ℚ) ≥ minCount then
        some (a, ((tidList txs a).length : ℚ) / (txs.length : ℚ)) else none)) := by
  apply optFilterMap_eq_filterMap
  intro a _
  rw [safeDiv_of_ne _ hne, Option.map_some']

theorem levelSupports_eq (txs : List (Finset ℕ)) (minCount : ℚ)
    (cands : List (Finset ℕ)) (hne : txs.length ≠ 0) :
    levelSupports txs minCount cands = some (cands.filterMap (fun S =>
      if ((supportCount txs S : ℚ)) ≥ minCount then
        some (S, ((supportCount txs S : ℚ)) / (txs.length : ℚ)) else none)) := by
  apply optFilterMap_eq_filterMap
  intro S _
  rw [safeDiv_of_ne _ hne, Option.map_some']

theorem eclatLoop_nil_frontier (txs : List (Finset ℕ)) (minCount : ℚ) :
    ∀ (fuel k : ℕ) (table : Table),
      eclatLoop txs minCount fuel k [] table = some table
  | 0, _, _ => rfl
  | fuel + 1, k, table => by
    rw [eclatLoop]
    simp [generateCandidates_nil]

/-! ### The level-wise induction -/

theorem goodSet_mono {txs : List (Finset ℕ)} {minCount : ℚ} {S T : Finset ℕ}
    (hg : goodSet txs minCount S) (hsub : T ⊆ S) : goodSet txs minCount T := by
  refine ⟨le_trans hg.1 ?_, fun a ha => hg.2 a (hsub ha)⟩
  exact_mod_cast Nat.cast_le.mpr (containCount_mono txs hsub)

theorem erase_union_erase {S : Finset ℕ} {a b : ℕ} (ha : a ∈ S) (hb : b ∈ S)
    (hab : a ≠ b) : S.erase a ∪ S.erase b = S := by
  ext x
  simp only [Finset.mem_union, Finset.mem_erase]
  constructor
  · rintro (⟨_, h⟩ | ⟨_, h⟩) <;> exact h
  · intro hx
    by_cases hxa : x = a
    · exact Or.inr ⟨by simpa [hxa] using hab, hx⟩
    · exact Or.inl ⟨hxa, hx⟩

theorem cand_complete {txs : List (Finset ℕ)} {minCount : ℚ} {k : ℕ}
    {frontier : List (Finset ℕ)} (hk : 2 ≤ k)
    (hfMem : ∀ S : Finset ℕ, S ∈ frontier ↔ (S.card = k - 1 ∧ goodSet txs minCount S))
    {S : Finset ℕ} (hcard : S.card = k) (hgood : goodSet txs minCount S) :
    S ∈ generateCandidates frontier k := by
  obtain ⟨a, ha, b, hb, hab⟩ := Finset.one_lt_card.mp (by omega : 1 < S.card)
  have hT1 : S.erase a ∈ frontier := by
    rw [hfMem]
    exact ⟨by rw [Finset.card_erase_of_mem ha, hcard],
      goodSet_mono hgood (Finset.erase_subset a S)⟩
  have hT2 : S.erase b ∈ frontier := by
    rw [hfMem]
    exact ⟨by rw [Finset.card_erase_of_mem hb, hcard],
      goodSet_mono hgood (Finset.erase_subset b S)⟩
  have hne : S.erase a ≠ S.erase b := by
    intro h
    have : b ∈ S.erase a := Finset.mem_erase.mpr ⟨Ne.symm hab, hb⟩
    rw [h] at this
    exact Finset.not_mem_erase b S this
  rw [mem_generateCandidates]
  refine ⟨?_, hcard⟩
  have := pairUnions_complete hT1 hT2 hne
  rwa [erase_union_erase ha hb hab] at this

theorem exists_good_subset {txs : List (Finset ℕ)} {minCount : ℚ} {S : Finset ℕ}
    (hgood : goodSet txs minCount S) {k : ℕ} (hk : k ≤ S.card) :
    ∃ S' : Finset ℕ, S' ⊆ S ∧ S'.card = k ∧ goodSet txs minCount S' := by
  obtain ⟨S', hsub, hcard⟩ := Finset.exists_smaller_set S k hk
  exact ⟨S', hsub, hcard, goodSet_mono hgood hsub⟩

theorem eclatLoop_spec (txs : List (Finset ℕ)) (minCount : ℚ) (hN : txs.length ≠ 0) :
    ∀ (fuel k : ℕ) (frontier : List (Finset ℕ)) (table : Table),
      2 ≤ k →
      frontier.Nodup →
      (∀ S : Finset ℕ, S ∈ frontier ↔ (S.card = k - 1 ∧ goodSet txs minCount S)) →
      (table.map Prod.fst).Nodup →
      (∀ S v, (S, v) ∈ table → v = (containCount txs S : ℚ) / (txs.length : ℚ)) →
      (∀ S : Finset ℕ, (∃ v, (S, v) ∈ table) ↔
        (1 ≤ S.card ∧ S.card ≤ k - 1 ∧ goodSet txs minCount S)) →
      ∃ tbl, eclatLoop txs minCount fuel k frontier table = some tbl ∧
        (tbl.map Prod.fst).Nodup ∧
        (∀ S v, (S, v) ∈ tbl → v = (containCount txs S : ℚ) / (txs.length : ℚ)) ∧
        (∀ S : Finset ℕ, (∃ v, (S, v) ∈ tbl) ↔
          (1 ≤ S.card ∧ S.card ≤ k - 1 + fuel ∧ goodSet txs minCount S))
  | 0, k, frontier, table => by
    intro _ _ _ htnd htval htmem
    exact ⟨table, rfl, htnd, htval, by simpa using htmem⟩
  | fuel + 1, k, frontier, table => by
    intro hk hfnd hfmem htnd htval htmem
    rw [eclatLoop]
    by_cases hc : (generateCandidates frontier k).isEmpty
    · rw [if_pos hc]
      refine ⟨table, rfl, htnd, htval, fun S => ?_⟩
      rw [htmem S]
      constructor
      · rintro ⟨h1, h2, h3⟩; exact ⟨h1, by omega, h3⟩
      · rintro ⟨h1, h2, h3⟩
        refine ⟨h1, ?_, h3⟩
        by_contra hgt
        push_neg at hgt
        obtain ⟨S', _, hcard', hgood'⟩ := exists_good_subset h3 (by omega : k ≤ S.card)
        have hmem := cand_complete hk hfmem hcard' hgood'
        rw [List.isEmpty_iff] at hc
        rw [hc] at hmem
        exact absurd hmem (List.not_mem_nil S')
    · rw [if_neg hc, levelSupports_eq txs minCount _ hN, Option.some_bind]
      have hFmem : ∀ (S : Finset ℕ) (v : ℚ),
          (S, v) ∈ (generateCandidates frontier k).filterMap (fun S =>
            if ((supportCount txs S : ℚ)) ≥ minCount then
              some (S, ((supportCount txs S : ℚ)) / (txs.length : ℚ)) else none) ↔
          (S ∈ generateCandidates frontier k ∧ minCount ≤ (supportCount txs S : ℚ) ∧
            v = (supportCount txs S : ℚ) / (txs.length : ℚ)) := by
        intro S v; exact mem_filterMap_if
      have hgood_of_cand : ∀ S : Finset ℕ, S ∈ generateCandidates frontier k →
          minCount ≤ (supportCount txs S : ℚ) → (S.card = k ∧ goodSet txs minCount S) := by
        intro S hS hcnt
        rw [mem_generateCandidates] at hS
        refine ⟨hS.2, ?_, ?_⟩
        · rwa [supportCount_eq_containCount] at hcnt
        · obtain ⟨A, hA, B, hB, rfl⟩ := mem_pairUnions_sound hS.1
          intro a ha
          rcases Finset.mem_union.mp ha with ha' | ha'
          · exact ((hfmem A).mp hA).2.2 a ha'
          · exact ((hfmem B).mp hB).2.2 a ha'
      have hcand_of_good : ∀ S : Finset ℕ, S.card = k → goodSet txs minCount S →
          (S ∈ generateCandidates frontier k ∧ minCount ≤ (supportCount txs S : ℚ)) := by
        intro S hcard hgood
        refine ⟨cand_complete hk hfmem hcard hgood, ?_⟩
        rw [supportCount_eq_containCount]
        exact hgood.1
      by_cases hF : ((generateCandidates frontier k).filterMap (fun S =>
          if ((supportCount txs S : ℚ)) ≥ minCount then
            some (S, ((supportCount txs S : ℚ)) / (txs.length : ℚ)) else none)).isEmpty
      · rw [if_pos hF]
        refine ⟨table, rfl, htnd, htval, fun S => ?_⟩
        rw [htmem S]
        constructor
        · rintro ⟨h1, h2, h3⟩; exact ⟨h1, by omega, h3⟩
        · rintro ⟨h1, h2, h3⟩
          refine ⟨h1, ?_, h3⟩
          by_contra hgt
          push_neg at hgt
          obtain ⟨S', _, hcard', hgood'⟩ := exists_good_subset h3 (by omega : k ≤ S.card)
          obtain ⟨hc', hcnt'⟩ := hcand_of_good S' hcard' hgood'
          have : (S', (supportCount txs S' : ℚ) / (txs.length : ℚ)) ∈
              (generateCandidates frontier k).filterMap (fun S =>
                if ((supportCount txs S : ℚ)) ≥ minCount then
                  some (S, ((supportCount txs S : ℚ)) / (txs.length : ℚ)) else none) :=
            (hFmem S' _).mpr ⟨hc', hcnt', rfl⟩
          rw [List.isEmpty_iff] at hF
          rw [hF] at this
          exact absurd this (List.not_mem_nil _)
      · rw [if_neg hF]
        have hfnd' : (((generateCandidates frontier k).filterMap (fun S =>
            if ((supportCount txs S : ℚ)) ≥ minCount then
              some (S, ((supportCount txs S : ℚ)) / (txs.length : ℚ)) else none)).map
              Prod.fst).Nodup := by
          rw [map_fst_filterMap_if]
          exact (generateCandidates_nodup frontier k).filter _
        have hfmem' : ∀ S : Finset ℕ,
            S ∈ ((generateCandidates frontier k).filterMap (fun S =>
              if ((supportCount txs S : ℚ)) ≥ minCount then
                some (S, ((supportCount txs S : ℚ)) / (txs.length : ℚ)) else none)).map
                Prod.fst ↔
              (S.card = (k + 1) - 1 ∧ goodSet txs minCount S) := by
          intro S
          rw [mem_map_fst]
          constructor
          · rintro ⟨v, hv⟩
            obtain ⟨hS, hcnt, _⟩ := (hFmem S v).mp hv
            have := hgood_of_cand S hS hcnt
            simpa using this
          · rintro ⟨hcard, hgood⟩
            obtain ⟨hc', hcnt'⟩ := hcand_of_good S (by simpa using hcard) hgood
            exact ⟨_, (hFmem S _).mpr ⟨hc', hcnt', rfl⟩⟩
        have htnd' : (((table ++ (generateCandidates frontier k).filterMap (fun S =>
            if ((supportCount txs S : ℚ)) ≥ minCount then
              some (S, ((supportCount txs S : ℚ)) / (txs.length : ℚ)) else none))).map
              Prod.fst).Nodup := by
          rw [List.map_append]
          rw [List.nodup_append]
          refine ⟨htnd, hfnd', ?_⟩
          intro S hS1 hS2
          obtain ⟨v1, hv1⟩ := mem_map_fst.mp hS1
          have hb1 := ((htmem S).mp ⟨v1, hv1⟩).2.1
          obtain ⟨v2, hv2⟩ := mem_map_fst.mp hS2
          obtain ⟨hS', hcnt', _⟩ := (hFmem S v2).mp hv2
          have hb2 := (hgood_of_cand S hS' hcnt').1
          omega
        have htval' : ∀ S v, (S, v) ∈ (table ++ (generateCandidates frontier k).filterMap (fun S =>
            if ((supportCount txs S : ℚ)) ≥ minCount then
              some (S, ((supportCount txs S : ℚ)) / (txs.length : ℚ)) else none)) →
            v = (containCount txs S : ℚ) / (txs.length : ℚ) := by
          intro S v hv
          rcases List.mem_append.mp hv with h | h
          · exact htval S v h
          · obtain ⟨_, _, hval⟩ := (hFmem S v).mp h
            rwa [supportCount_eq_containCount] at hval
        have htmem' : ∀ S : Finset ℕ,
            (∃ v, (S, v) ∈ (table ++ (generateCandidates frontier k).filterMap (fun S =>
              if ((supportCount txs S : ℚ)) ≥ minCount then
                some (S, ((supportCount txs S : ℚ)) / (txs.length : ℚ)) else none))) ↔
              (1 ≤ S.card ∧ S.card ≤ (k + 1) - 1 ∧ goodSet txs minCount S) := by
          intro S
          constructor
          · rintro ⟨v, hv⟩
            rcases List.mem_append.mp hv with h | h
            · obtain ⟨h1, h2, h3⟩ := (htmem S).mp ⟨v, h⟩
              exact ⟨h1, by omega, h3⟩
            · obtain ⟨hS', hcnt', _⟩ := (hFmem S v).mp h
              obtain ⟨hcard, hgood⟩ := hgood_of_cand S hS' hcnt'
              exact ⟨by omega, by omega, hgood⟩
          · rintro ⟨h1, h2, h3⟩
            by_cases hsmall : S.card ≤ k - 1
            · obtain ⟨v, hv⟩ := (htmem S).mpr ⟨h1, hsmall, h3⟩
              exact ⟨v, List.mem_append.mpr (Or.inl hv)⟩
            · have hcard : S.card = k := by omega
              obtain ⟨hc', hcnt'⟩ := hcand_of_good S hcard h3
              exact ⟨_, List.mem_append.mpr (Or.inr ((hFmem S _).mpr ⟨hc', hcnt', rfl⟩))⟩
        obtain ⟨tbl, heq, hnd, hval, hmem⟩ :=
          eclatLoop_spec txs minCount hN fuel (k + 1) _ _ (by omega) hfnd' hfmem'
            htnd' htval' htmem'
        refine ⟨tbl, heq, hnd, hval, fun S => ?_⟩
        rw [hmem S]
        constructor
        · rintro ⟨h1, h2, h3⟩; exact ⟨h1, by omega, h3⟩
        · rintro ⟨h1, h2, h3⟩; exact ⟨h1, by omega, h3⟩

theorem miner_spec (txs : List (Finset ℕ)) (ms : ℚ) (ml : ℕ)
    (hne : txs ≠ []) (hml : 1 ≤ ml) :
    ∃ tbl, find_frequent_itemsets txs ms ml = some tbl ∧
      (tbl.map Prod.fst).Nodup ∧
      (∀ S v, (S, v) ∈ tbl → v = (containCount txs S : ℚ) / (txs.length : ℚ)) ∧
      (∀ S : Finset ℕ, (∃ v, (S, v) ∈ tbl) ↔
        (1 ≤ S.card ∧ S.card ≤ ml ∧ goodSet txs ((txs.length : ℚ) * ms) S)) := by
  have hN : txs.length ≠ 0 := by simpa [List.length_eq_zero] using hne
  have hfind : find_frequent_itemsets txs ms ml =
      eclatLoop txs ((txs.length : ℚ) * ms) (ml - 1) 2
        ((((itemsOf txs).filterMap (fun a =>
          if ((tidList txs a).length : ℚ) ≥ (txs.length : ℚ) * ms then
            some (a, ((tidList txs a).length : ℚ) / (txs.length : ℚ)) else none)).map
          (fun p => (({p.1} : Finset ℕ), p.2))).map Prod.fst)
        (((itemsOf txs).filterMap (fun a =>
          if ((tidList txs a).length : ℚ) ≥ (txs.length : ℚ) * ms then
            some (a, ((tidList txs a).length : ℚ) / (txs.length : ℚ)) else none)).map
          (fun p => (({p.1} : Finset ℕ), p.2))) := by
    rw [find_frequent_itemsets, freq1_eq txs _ hN, Option.some_bind]
  have hf1mem : ∀ (a : ℕ) (v : ℚ),
      (a, v) ∈ (itemsOf txs).filterMap (fun a =>
        if ((tidList txs a).length : ℚ) ≥ (txs.length : ℚ) * ms then
          some (a, ((tidList txs a).length : ℚ) / (txs.length : ℚ)) else none) ↔
      (a ∈ itemsOf txs ∧ (txs.length : ℚ) * ms ≤ ((tidList txs a).length : ℚ) ∧
        v = ((tidList txs a).length : ℚ) / (txs.length : ℚ)) := by
    intro a v; exact mem_filterMap_if
  have htbl1mem : ∀ (S : Finset ℕ) (v : ℚ),
      (S, v) ∈ ((itemsOf txs).filterMap (fun a =>
        if ((tidList txs a).length : ℚ) ≥ (txs.length : ℚ) * ms then
          some (a, ((tidList txs a).length : ℚ) / (txs.length : ℚ)) else none)).map
        (fun p => (({p.1} : Finset ℕ), p.2)) ↔
      (∃ a : ℕ, S = {a} ∧ a ∈ itemsOf txs ∧
        (txs.length : ℚ) * ms ≤ (containCount txs ({a} : Finset ℕ) : ℚ) ∧
        v = (containCount txs ({a} : Finset ℕ) : ℚ) / (txs.length : ℚ)) := by
    intro S v
    rw [List.mem_map]
    constructor
    · rintro ⟨⟨a, w⟩, hp, heq⟩
      obtain ⟨ha, hcnt, hval⟩ := (hf1mem a w).mp hp
      rw [Prod.mk.injEq] at heq
      obtain ⟨hS, hv⟩ := heq
      refine ⟨a, hS.symm, ha, ?_, ?_⟩
      · rwa [← tidList_length_eq]
      · rw [← tidList_length_eq, ← hv, hval]
    · rintro ⟨a, rfl, ha, hcnt, hval⟩
      refine ⟨(a, (containCount txs ({a} : Finset ℕ) : ℚ) / (txs.length : ℚ)), ?_, ?_⟩
      · exact (hf1mem a _).mpr
          ⟨ha, by rwa [tidList_length_eq], by rw [tidList_length_eq]⟩
      · rw [hval]
  have htbl1iff : ∀ S : Finset ℕ,
      (∃ v, (S, v) ∈ ((itemsOf txs).filterMap (fun a =>
        if ((tidList txs a).length : ℚ) ≥ (txs.length : ℚ) * ms then
          some (a, ((tidList txs a).length : ℚ) / (txs.length : ℚ)) else none)).map
        (fun p => (({p.1} : Finset ℕ), p.2))) ↔
      (1 ≤ S.card ∧ S.card ≤ 2 - 1 ∧ goodSet txs ((txs.length : ℚ) * ms) S) := by
    intro S
    constructor
    · rintro ⟨v, hv⟩
      obtain ⟨a, rfl, ha, hcnt, _⟩ := (htbl1mem S v).mp hv
      refine ⟨by simp, by simp, hcnt, ?_⟩
      intro x hx
      rw [Finset.mem_singleton] at hx
      subst hx
      exact mem_itemsOf.mp ha
    · rintro ⟨h1, h2, hgood⟩
      have hcard : S.card = 1 := by omega
      obtain ⟨a, rfl⟩ := Finset.card_eq_one.mp hcard
      refine ⟨_, (htbl1mem {a} _).mpr ⟨a, rfl, ?_, hgood.1, rfl⟩⟩
      exact mem_itemsOf.mpr (hgood.2 a (Finset.mem_singleton_self a))
  have hf1nd : (((itemsOf txs).filterMap (fun a =>
      if ((tidList txs a).length : ℚ) ≥ (txs.length : ℚ) * ms then
        some (a, ((tidList txs a).length : ℚ) / (txs.length : ℚ)) else none)).map
      Prod.fst).Nodup := by
    rw [map_fst_filterMap_if]
    exact (itemsOf_nodup txs).filter _
  have htbl1nd : ((((itemsOf txs).filterMap (fun a =>
      if ((tidList txs a).length : ℚ) ≥ (txs.length : ℚ) * ms then
        some (a, ((tidList txs a).length : ℚ) / (txs.length : ℚ)) else none)).map
      (fun p => (({p.1} : Finset ℕ), p.2))).map Prod.fst).Nodup := by
    rw [List.map_map]
    have : (Prod.fst ∘ fun p : ℕ × ℚ => (({p.1} : Finset ℕ), p.2)) =
        (fun a : ℕ => ({a} : Finset ℕ)) ∘ Prod.fst := rfl
    rw [this, ← List.map_map]
    exact hf1nd.map Finset.singleton_injective
  have hfrontmem : ∀ S : Finset ℕ,
      S ∈ (((itemsOf txs).filterMap (fun a =>
        if ((tidList txs a).length : ℚ) ≥ (txs.length : ℚ) * ms then
          some (a, ((tidList txs a).length : ℚ) / (txs.length : ℚ)) else none)).map
        (fun p => (({p.1} : Finset ℕ), p.2))).map Prod.fst ↔
      (S.card = 2 - 1 ∧ goodSet txs ((txs.length : ℚ) * ms) S) := by
    intro S
    rw [mem_map_fst, htbl1iff S]
    constructor
    · rintro ⟨h1, h2, h3⟩; exact ⟨by omega, h3⟩
    · rintro ⟨h1, h2⟩; exact ⟨by omega, by omega, h2⟩
  have htval : ∀ (S : Finset ℕ) (v : ℚ),
      (S, v) ∈ ((itemsOf txs).filterMap (fun a =>
        if ((tidList txs a).length : ℚ) ≥ (txs.length : ℚ) * ms then
          some (a, ((tidList txs a).length : ℚ) / (txs.length : ℚ)) else none)).map
        (fun p => (({p.1} : Finset ℕ), p.2)) →
      v = (containCount txs S : ℚ) / (txs.length : ℚ) := by
    intro S v hv
    obtain ⟨a, rfl, _, _, hval⟩ := (htbl1mem S v).mp hv
    exact hval
  obtain ⟨tbl, heq, hnd, hval, hmem⟩ :=
    eclatLoop_spec txs ((txs.length : ℚ) * ms) hN (ml - 1) 2 _ _ (le_refl 2)
      htbl1nd hfrontmem htbl1nd htval htbl1iff
  refine ⟨tbl, by rw [hfind, heq], hnd, hval, fun S => ?_⟩
  rw [hmem S]
  constructor
  · rintro ⟨h1, h2, h3⟩; exact ⟨h1, by omega, h3⟩
  · rintro ⟨h1, h2, h3⟩; exact ⟨h1, by omega, h3⟩

theorem eclatLoop_isSome (txs : List (Finset ℕ)) (minCount : ℚ)
    (hN : txs.length ≠ 0) :
    ∀ (fuel k : ℕ) (frontier : List (Finset ℕ)) (table : Table),
      (eclatLoop txs minCount fuel k frontier table).isSome = true
  | 0, _, _, _ => rfl
  | fuel + 1, k, frontier, table => by
    rw [eclatLoop]
    by_cases hc : (generateCandidates frontier k).isEmpty
    · rw [if_pos hc, Option.isSome_some]
    · rw [if_neg hc, levelSupports_eq txs minCount _ hN, Option.some_bind]
      by_cases hF : ((generateCandidates frontier k).filterMap (fun S =>
          if ((supportCount txs S : ℚ)) ≥ minCount then
            some (S, ((supportCount txs S : ℚ)) / (txs.length : ℚ))
          else none)).isEmpty
      · rw [if_pos hF, Option.isSome_some]
      · rw [if_neg hF]
        exact eclatLoop_isSome txs minCount hN fuel (k + 1) _ _

theorem find_frequent_itemsets_isSome (txs : List (Finset ℕ)) (ms : ℚ)
    (ml : ℕ) (hne : txs ≠ []) :
    (find_frequent_itemsets txs ms ml).isSome = true := by
  have hN : txs.length ≠ 0 := by simpa [List.length_eq_zero] using hne
  rw [find_frequent_itemsets, freq1_eq txs _ hN, Option.some_bind]
  exact eclatLoop_isSome txs _ hN (ml - 1) 2 _ _

theorem find_frequent_itemsets_nil (ms : ℚ) (ml : ℕ) :
    find_frequent_itemsets [] ms ml = some [] := by
  rw [find_frequent_itemsets]
  have h0 : itemsOf [] = [] := by decide
  have h1 : freq1 [] ((List.length ([] : List (Finset ℕ)) : ℚ) * ms) = some [] := by
    rw [freq1, h0]; rfl
  rw [h1, Option.some_bind]
  simpa using eclatLoop_nil_frontier [] _ (ml - 1) 2 []

/-! ### Rule generation -/

theorem mem_antecedentsOf {S A : Finset ℕ} :
    A ∈ antecedentsOf S ↔ (A ⊆ S ∧ A ≠ ∅ ∧ A ≠ S) := by
  rw [antecedentsOf, List.mem_flatMap]
  constructor
  · rintro ⟨r, hr, hA⟩
    rw [List.mem_range'_1] at hr
    rcases List.mem_map.mp hA with ⟨l, hl, rfl⟩
    obtain ⟨hsubl, hlen⟩ := List.mem_sublistsLen.mp hl
    have hnodup : l.Nodup := (finsetToList_nodup S).sublist hsubl
    have hsubS : l.toFinset ⊆ S := by
      intro x hx
      rw [List.mem_toFinset] at hx
      exact mem_finsetToList.mp (hsubl.subset hx)
    refine ⟨hsubS, ?_, ?_⟩
    · intro hemp
      rcases l with _ | ⟨x, l'⟩
      · rw [List.length_nil] at hlen; omega
      · have hx : x ∈ (x :: l').toFinset := by simp
        rw [hemp] at hx
        exact absurd hx (Finset.not_mem_empty x)
    · have hcard : l.toFinset.card = r := by
        rw [List.toFinset_card_of_nodup hnodup, hlen]
      intro hAS
      rw [hAS] at hcard
      omega
  · rintro ⟨hsub, hne, hnes⟩
    have h1 : 1 ≤ A.card :=
      Finset.card_pos.mpr (Finset.nonempty_iff_ne_empty.mpr hne)
    have h2 : A.card < S.card :=
      Finset.card_lt_card (Finset.ssubset_iff_subset_ne.mpr ⟨hsub, hnes⟩)
    refine ⟨A.card, ?_, ?_⟩
    · rw [List.mem_range'_1]
      exact ⟨h1, by omega⟩
    · apply List.mem_map.mpr
      refine ⟨finsetToList A, ?_, finsetToList_toFinset A⟩
      exact List.mem_sublistsLen.mpr ⟨finsetToList_sublist hsub, finsetToList_length A⟩

theorem tblGet_of_mem :
    ∀ {tbl : Table}, (tbl.map Prod.fst).Nodup →
      ∀ {A : Finset ℕ} {v : ℚ}, (A, v) ∈ tbl → tblGet tbl A = v := by
  intro tbl
  induction tbl with
  | nil => intro _ A v h; exact absurd h (List.not_mem_nil _)
  | cons p rest ih =>
    intro hnd A v h
    rw [List.map_cons, List.nodup_cons] at hnd
    rw [tblGet]
    by_cases hpA : p.1 = A
    · rw [List.find?_cons_of_pos _ (by simpa using hpA)]
      rcases List.mem_cons.mp h with rfl | hrest
      · rfl
      · exact absurd (hpA ▸ List.mem_map.mpr ⟨(A, v), hrest, rfl⟩) hnd.1
    · rw [List.find?_cons_of_neg _ (by simpa using hpA)]
      rcases List.mem_cons.mp h with rfl | hrest
      · exact absurd rfl hpA
      · have := ih hnd.2 hrest
        rwa [tblGet] at this

theorem tblGet_ne_zero_iff {tbl : Table} (hpos : ∀ p ∈ tbl, 0 < p.2)
    {A : Finset ℕ} : tblGet tbl A ≠ 0 ↔ ∃ v, (A, v) ∈ tbl := by
  constructor
  · intro h
    rw [tblGet] at h
    cases hf : tbl.find? (fun p => p.1 = A) with
    | none => rw [hf] at h; exact absurd rfl h
    | some q =>
      have hq := List.mem_of_find?_eq_some hf
      have hqA : q.1 = A := by
        have := List.find?_some hf
        simpa using this
      exact ⟨q.2, by rw [← hqA]; exact hq⟩
  · rintro ⟨v, hv⟩
    have : (tbl.find? (fun p => p.1 = A)).isSome := by
      rw [List.find?_isSome]
      exact ⟨(A, v), hv, by simp⟩
    rw [tblGet]
    cases hf : tbl.find? (fun p => p.1 = A) with
    | none => rw [hf] at this; simp at this
    | some q =>
      have hq := List.mem_of_find?_eq_some hf
      exact ne_of_gt (hpos q hq)

theorem ruleOfSplit_eq (tbl : Table) (txs : List (Finset ℕ)) (mc : ℚ)
    (S : Finset ℕ) (sup : ℚ) (A : Finset ℕ) (hne : txs.length ≠ 0) :
    ruleOfSplit tbl txs mc S sup A = some (
      if S \ A = ∅ then none
      else if tblGet tbl A = 0 then none
      else if sup / tblGet tbl A ≥ mc then
        some (specRule tbl txs S sup A (tblGet tbl A))
      else none) := by
  rw [ruleOfSplit]
  by_cases h1 : S \ A = ∅
  · simp only [h1, if_pos trivial, if_true, reduceIte]
  · simp only [h1, reduceIte]
    by_cases h2 : tblGet tbl A = 0
    · simp only [h2, reduceIte]
    · simp only [h2, reduceIte]
      by_cases h3 : sup / tblGet tbl A ≥ mc
      · simp only [h3, reduceIte]
        by_cases h4 : tblGet tbl (S \ A) = 0
        · rw [if_pos h4, calcConsequentSupport, safeDiv_of_ne _ hne,
            Option.map_some', specRule, specConsequentSupport, if_pos h4]
        · rw [if_neg h4, Option.map_some', specRule, specConsequentSupport,
            if_neg h4]
      · simp only [h3, reduceIte]

theorem rulesAux_spec (tbl : Table) (txs : List (Finset ℕ)) (mc : ℚ)
    (hne : txs.length ≠ 0) :
    ∀ part : Table, ∃ L, rulesAux tbl txs mc part = some L ∧
      ∀ r : Rule, r ∈ L ↔ ∃ S sup A, (S, sup) ∈ part ∧ 2 ≤ S.card ∧
        A ⊆ S ∧ A ≠ ∅ ∧ A ≠ S ∧ tblGet tbl A ≠ 0 ∧ mc ≤ sup / tblGet tbl A ∧
        r = specRule tbl txs S sup A (tblGet tbl A)
  | [] => ⟨[], rfl, by simp⟩
  | (S, sup) :: rest => by
    obtain ⟨L', hL', hmem'⟩ := rulesAux_spec tbl txs mc hne rest
    by_cases hcard : S.card < 2
    · rw [rulesAux, if_pos hcard, hL']
      refine ⟨L', rfl, fun r => ?_⟩
      rw [hmem' r]
      constructor
      · rintro ⟨S', sup', A, hmem, hrest⟩
        exact ⟨S', sup', A, List.mem_cons_of_mem _ hmem, hrest⟩
      · rintro ⟨S', sup', A, hmem, h2, hrest⟩
        rcases List.mem_cons.mp hmem with heq | hmem2
        · rw [Prod.mk.injEq] at heq
          rw [heq.1] at h2
          omega
        · exact ⟨S', sup', A, hmem2, h2, hrest⟩
    · rw [rulesAux, if_neg hcard,
        optFilterMap_eq_filterMap (fun A _ => ruleOfSplit_eq tbl txs mc S sup A hne),
        Option.some_bind, hL', Option.map_some']
      refine ⟨_, rfl, fun r => ?_⟩
      rw [List.mem_append, hmem' r]
      constructor
      · rintro (hfil | hold)
        · rcases List.mem_filterMap.mp hfil with ⟨A, hA, hgA⟩
          obtain ⟨hsub, hAne, hAS⟩ := mem_antecedentsOf.mp hA
          by_cases h1 : S \ A = ∅
          · rw [if_pos h1] at hgA; exact absurd hgA (by simp)
          rw [if_neg h1] at hgA
          by_cases h2 : tblGet tbl A = 0
          · rw [if_pos h2] at hgA; exact absurd hgA (by simp)
          rw [if_neg h2] at hgA
          by_cases h3 : sup / tblGet tbl A ≥ mc
          · rw [if_pos h3, Option.some_inj] at hgA
            exact ⟨S, sup, A, List.mem_cons_self _ _, by omega, hsub, hAne, hAS,
              h2, h3, hgA.symm⟩
          · rw [if_neg h3] at hgA; exact absurd hgA (by simp)
        · obtain ⟨S', sup', A, hmem2, hrest⟩ := hold
          exact ⟨S', sup', A, List.mem_cons_of_mem _ hmem2, hrest⟩
      · rintro ⟨S', sup', A, hmem2, h2, hsub, hAne, hAS, hget, hconf, hr⟩
        rcases List.mem_cons.mp hmem2 with heq | hmem3
        · left
          rw [Prod.mk.injEq] at heq
          obtain ⟨rfl, rfl⟩ := heq
          apply List.mem_filterMap.mpr
          refine ⟨A, mem_antecedentsOf.mpr ⟨hsub, hAne, hAS⟩, ?_⟩
          have h1 : S' \ A ≠ ∅ := by
            rw [Ne, Finset.sdiff_eq_empty_iff_subset]
            intro hSA
            exact hAS (Finset.Subset.antisymm hsub hSA)
          rw [if_neg h1, if_neg hget, if_pos hconf, hr]
        · right
          exact ⟨S', sup', A, hmem3, h2, hsub, hAne, hAS, hget, hconf, hr⟩

theorem insertByConf_perm (r : Rule) :
    ∀ l : List Rule, List.Perm (insertByConf r l) (r :: l)
  | [] => List.Perm.refl _
  | x :: xs => by
    rw [insertByConf]
    by_cases h : r.confidence < x.confidence
    · rw [if_pos h]
      exact ((insertByConf_perm r xs).cons x).trans (List.Perm.swap r x xs)
    · rw [if_neg h]

theorem sortByConfDesc_perm : ∀ l : List Rule, List.Perm (sortByConfDesc l) l
  | [] => List.Perm.refl _
  | r :: rs => by
    rw [sortByConfDesc]
    exact (insertByConf_perm r _).trans ((sortByConfDesc_perm rs).cons r)

theorem mem_sortByConfDesc {r : Rule} {l : List Rule} :
    r ∈ sortByConfDesc l ↔ r ∈ l :=
  (sortByConfDesc_perm l).mem_iff

theorem insertByConf_pairwise {r : Rule} :
    ∀ {l : List Rule},
      l.Pairwise (fun a b : Rule => b.confidence ≤ a.confidence) →
      (insertByConf r l).Pairwise (fun a b : Rule => b.confidence ≤ a.confidence)
  | [], _ => List.pairwise_singleton _ _
  | x :: xs, h => by
    rw [insertByConf]
    obtain ⟨hx, hxs⟩ := List.pairwise_cons.mp h
    by_cases hlt : r.confidence < x.confidence
    · rw [if_pos hlt]
      apply List.pairwise_cons.mpr
      refine ⟨?_, insertByConf_pairwise hxs⟩
      intro y hy
      rcases List.mem_cons.mp ((insertByConf_perm r xs).mem_iff.mp hy) with rfl | hy'
      · exact le_of_lt hlt
      · exact hx y hy'
    · rw [if_neg hlt]
      apply List.pairwise_cons.mpr
      refine ⟨?_, h⟩
      intro y hy
      rcases List.mem_cons.mp hy with rfl | hy'
      · exact le_of_not_lt hlt
      · exact le_trans (hx y hy') (le_of_not_lt hlt)

theorem sortByConfDesc_pairwise :
    ∀ l : List Rule,
      (sortByConfDesc l).Pairwise (fun a b : Rule => b.confidence ≤ a.confidence)
  | [] => List.Pairwise.nil
  | r :: rs => by
    rw [sortByConfDesc]
    exact insertByConf_pairwise (sortByConfDesc_pairwise rs)

theorem filter_insertByConf (r : Rule) (c : ℚ) :
    ∀ l : List Rule,
      (insertByConf r l).filter (fun x => decide (x.confidence = c)) =
        if r.confidence = c then
          r :: l.filter (fun x => decide (x.confidence = c))
        else l.filter (fun x => decide (x.confidence = c))
  | [] => by
    rw [insertByConf]
    by_cases h : r.confidence = c
    · rw [if_pos h, List.filter_cons, if_pos (by simpa using h), List.filter_nil]
    · rw [if_neg h, List.filter_cons, if_neg (by simpa using h), List.filter_nil]
  | x :: xs => by
    have ih := filter_insertByConf r c xs
    rw [insertByConf]
    by_cases hlt : r.confidence < x.confidence
    · rw [if_pos hlt]
      by_cases hrc : r.confidence = c
      · have hxc : ¬(x.confidence = c) := by
          intro h
          rw [← hrc] at h
          rw [h] at hlt
          exact absurd hlt (lt_irrefl _)
        simp [List.filter_cons, hxc, ih, hrc]
      · simp [List.filter_cons, ih, hrc]
    · rw [if_neg hlt]
      by_cases hrc : r.confidence = c
      · simp [List.filter_cons, hrc]
      · simp [List.filter_cons, hrc]

theorem filter_sortByConfDesc (c : ℚ) :
    ∀ l : List Rule,
      (sortByConfDesc l).filter (fun x => decide (x.confidence = c)) =
        l.filter (fun x => decide (x.confidence = c))
  | [] => rfl
  | r :: rs => by
    rw [sortByConfDesc, filter_insertByConf, List.filter_cons,
      filter_sortByConfDesc c rs]
    by_cases hrc : r.confidence = c
    · rw [if_pos hrc, if_pos (by simpa using hrc)]
    · rw [if_neg hrc, if_neg (by simpa using hrc)]

/-! ### Claim C1: miner exactness -/

/-- C1: for every non-empty list of transactions (duplicate-free item
sets), every `min_support` in `(0,1]` and every `max_length ≥ 1`,
`find_frequent_itemsets` returns (normally) a table whose keys are
exactly the itemsets `S` with `1 ≤ |S| ≤ max_length` whose containment
count clears `N * min_support`, each mapped to that count divided by
`N`; the level-wise frontier join plus tid-list intersection loses no
frequent itemset and admits no infrequent one. -/
theorem c1_miner_exactness (txs : List (Finset ℕ)) (ms : ℚ) (ml : ℕ)
    (hne : txs ≠ []) (hms0 : 0 < ms) (hms1 : ms ≤ 1) (hml : 1 ≤ ml) :
    ∃ tbl, find_frequent_itemsets txs ms ml = some tbl ∧
      (∀ S : Finset ℕ, (∃ v, (S, v) ∈ tbl) ↔
        (1 ≤ S.card ∧ S.card ≤ ml ∧
          (txs.length : ℚ) * ms ≤ (containCount txs S : ℚ))) ∧
      (∀ S v, (S, v) ∈ tbl → v = (containCount txs S : ℚ) / (txs.length : ℚ)) ∧
      (tbl.map Prod.fst).Nodup := by
  obtain ⟨tbl, heq, hnd, hval, hmem⟩ := miner_spec txs ms ml hne hml
  refine ⟨tbl, heq, fun S => ?_, hval, hnd⟩
  rw [hmem S]
  constructor
  · rintro ⟨h1, h2, h3⟩; exact ⟨h1, h2, h3.1⟩
  · rintro ⟨h1, h2, h3⟩
    refine ⟨h1, h2, h3, ?_⟩
    have hNpos : 0 < txs.length := List.length_pos.mpr hne
    have hmul : (0 : ℚ) < (txs.length : ℚ) * ms :=
      mul_pos (by exact_mod_cast hNpos) hms0
    have hcntq : (0 : ℚ) < (containCount txs S : ℚ) := lt_of_lt_of_le hmul h3
    have hcnt : 0 < containCount txs S := by exact_mod_cast hcntq
    obtain ⟨t, ht, hsub⟩ := containCount_pos_iff.mp hcnt
    exact fun a ha => ⟨t, ht, hsub ha⟩

/-- Witness for C1 at the concrete input
`transactions = [{0,1},{0}]`, `min_support = 1/2`, `max_length = 2`. -/
theorem c1_miner_exactness_witness :
    ∃ tbl, find_frequent_itemsets [{0, 1}, {0}] (1/2) 2 = some tbl ∧
      (∀ S : Finset ℕ, (∃ v, (S, v) ∈ tbl) ↔
        (1 ≤ S.card ∧ S.card ≤ 2 ∧
          ((List.length [({0, 1} : Finset ℕ), {0}] : ℚ) * (1/2) ≤
            (containCount [{0, 1}, {0}] S : ℚ)))) ∧
      (∀ S v, (S, v) ∈ tbl →
        v = (containCount [{0, 1}, {0}] S : ℚ) /
          (List.length [({0, 1} : Finset ℕ), {0}] : ℚ)) ∧
      (tbl.map Prod.fst).Nodup :=
  c1_miner_exactness [{0, 1}, {0}] (1/2) 2 (by decide) (by norm_num) (by norm_num)
    (by norm_num)

/-! ### Claim C3: anti-monotonicity of the returned table -/

/-- C3: for every table produced by `find_frequent_itemsets` with valid
parameters, every itemset `S` in the table and every non-empty proper
subset `T` of `S`, `T` is also in the table and its recorded support is
at least that of `S`. -/
theorem c3_antimonotonicity (txs : List (Finset ℕ)) (ms : ℚ) (ml : ℕ) (tbl : Table)
    (hms0 : 0 < ms) (hms1 : ms ≤ 1) (hml : 1 ≤ ml)
    (heq : find_frequent_itemsets txs ms ml = some tbl) :
    ∀ (S T : Finset ℕ) (vS : ℚ), (S, vS) ∈ tbl → T ⊆ S → T ≠ ∅ → T ≠ S →
      ∃ vT, (T, vT) ∈ tbl ∧ vS ≤ vT := by
  by_cases hne : txs = []
  · subst hne
    rw [find_frequent_itemsets_nil] at heq
    obtain rfl : ([] : Table) = tbl := by simpa using heq
    intro S T vS hmem
    simp at hmem
  · obtain ⟨tbl', heq', hnd, hval, hmem⟩ := miner_spec txs ms ml hne hml
    rw [heq] at heq'
    obtain rfl : tbl = tbl' := by simpa using heq'
    intro S T vS hS hTS hTne hTSne
    obtain ⟨h1, h2, hgood⟩ := (hmem S).mp ⟨vS, hS⟩
    have hTcard : 1 ≤ T.card :=
      Finset.card_pos.mpr (Finset.nonempty_iff_ne_empty.mpr hTne)
    have hTlt : T.card < S.card :=
      Finset.card_lt_card (Finset.ssubset_iff_subset_ne.mpr ⟨hTS, hTSne⟩)
    obtain ⟨vT, hvT⟩ := (hmem T).mpr ⟨hTcard, by omega, goodSet_mono hgood hTS⟩
    refine ⟨vT, hvT, ?_⟩
    rw [hval S vS hS, hval T vT hvT]
    have hNpos : (0 : ℚ) < (txs.length : ℚ) := by
      have := List.length_pos.mpr hne
      exact_mod_cast this
    apply (div_le_div_iff_of_pos_right hNpos).mpr
    exact_mod_cast containCount_mono txs hTS

/-- Witness for C3 at the concrete input
`transactions = [{0,1},{0}]`, `min_support = 1/2`, `max_length = 2`,
`S = {0,1}`, `T = {0}`. -/
theorem c3_antimonotonicity_witness :
    ∃ vT, (({0} : Finset ℕ), vT) ∈
        [(({0} : Finset ℕ), (1 : ℚ)), ({1}, 1/2), ({0, 1}, 1/2)] ∧
      (1/2 : ℚ) ≤ vT :=
  c3_antimonotonicity [{0, 1}, {0}] (1/2) 2
    [(({0} : Finset ℕ), (1 : ℚ)), ({1}, 1/2), ({0, 1}, 1/2)]
    (by norm_num) (by norm_num) (by norm_num) (by decide)
    {0, 1} {0} (1/2) (by decide) (by decide) (by decide) (by decide)

/-! ### Claim C4: rule-generation contract -/

/-- C4: for a table with positive support values and distinct keys and a
non-empty transaction list, `generate_association_rules` emits exactly
the rules arising from a size-`≥ 2` itemset of the table and a non-empty
proper antecedent whose support is found in the table with
`confidence = support(itemset)/support(antecedent) ≥ min_confidence`;
each rule's lift is `confidence/consequent_support` when that support is
positive and `0` otherwise, the consequent's support being the table
value or, when absent, the direct transaction scan divided by `N`; and
the output is sorted by confidence descending, stably with respect to
generation order among ties. -/
theorem c4_rule_generation (tbl : Table) (txs : List (Finset ℕ)) (mc : ℚ)
    (hpos : ∀ p ∈ tbl, 0 < p.2) (hnd : (tbl.map Prod.fst).Nodup)
    (hne : txs ≠ []) :
    ∃ L rules, rulesUnsorted tbl txs mc = some L ∧
      generate_association_rules tbl txs mc = some rules ∧
      (∀ r : Rule, r ∈ rules ↔
        ∃ (S : Finset ℕ) (sup : ℚ) (A : Finset ℕ) (asup : ℚ),
          (S, sup) ∈ tbl ∧ 2 ≤ S.card ∧ (A, asup) ∈ tbl ∧
          A ⊆ S ∧ A ≠ ∅ ∧ A ≠ S ∧ mc ≤ sup / asup ∧
          r = specRule tbl txs S sup A asup) ∧
      rules.Pairwise (fun a b : Rule => b.confidence ≤ a.confidence) ∧
      (∀ c : ℚ, rules.filter (fun x => decide (x.confidence = c)) =
        L.filter (fun x => decide (x.confidence = c))) := by
  have hN : txs.length ≠ 0 := by simpa [List.length_eq_zero] using hne
  obtain ⟨L, hL, hmem⟩ := rulesAux_spec tbl txs mc hN tbl
  refine ⟨L, sortByConfDesc L, hL, ?_, ?_, sortByConfDesc_pairwise L,
    fun c => filter_sortByConfDesc c L⟩
  · rw [generate_association_rules, rulesUnsorted, hL, Option.map_some']
  · intro r
    rw [mem_sortByConfDesc, hmem r]
    constructor
    · rintro ⟨S, sup, A, h1, h2, h3, h4, h5, hget, hconf, hr⟩
      obtain ⟨v, hv⟩ := (tblGet_ne_zero_iff hpos).mp hget
      have hgv : tblGet tbl A = v := tblGet_of_mem hnd hv
      refine ⟨S, sup, A, v, h1, h2, hv, h3, h4, h5, ?_, ?_⟩
      · rwa [hgv] at hconf
      · rwa [hgv] at hr
    · rintro ⟨S, sup, A, asup, h1, h2, hA, h3, h4, h5, hconf, hr⟩
      have hget : tblGet tbl A = asup := tblGet_of_mem hnd hA
      refine ⟨S, sup, A, h1, h2, h3, h4, h5, ?_, ?_, ?_⟩
      · rw [hget]; exact ne_of_gt (hpos (A, asup) hA)
      · rw [hget]; exact hconf
      · rw [hget]; exact hr

/-- Witness for C4 at the concrete table
`{(0,1): 3/5, (0): 4/5, (1): 4/5}`, the five-transaction scenario and
`min_confidence = 7/10`. -/
theorem c4_rule_generation_witness :
    ∃ L rules,
      rulesUnsorted [(({0, 1} : Finset ℕ), (3/5 : ℚ)), ({0}, 4/5), ({1}, 4/5)]
        [{0, 1}, {0, 1, 2}, {0}, {1, 2}, {0, 1, 2}] (7/10) = some L ∧
      generate_association_rules
        [(({0, 1} : Finset ℕ), (3/5 : ℚ)), ({0}, 4/5), ({1}, 4/5)]
        [{0, 1}, {0, 1, 2}, {0}, {1, 2}, {0, 1, 2}] (7/10) = some rules ∧
      (∀ r : Rule, r ∈ rules ↔
        ∃ (S : Finset ℕ) (sup : ℚ) (A : Finset ℕ) (asup : ℚ),
          (S, sup) ∈ [(({0, 1} : Finset ℕ), (3/5 : ℚ)), ({0}, 4/5), ({1}, 4/5)] ∧
          2 ≤ S.card ∧
          (A, asup) ∈ [(({0, 1} : Finset ℕ), (3/5 : ℚ)), ({0}, 4/5), ({1}, 4/5)] ∧
          A ⊆ S ∧ A ≠ ∅ ∧ A ≠ S ∧ (7/10 : ℚ) ≤ sup / asup ∧
          r = specRule [(({0, 1} : Finset ℕ), (3/5 : ℚ)), ({0}, 4/5), ({1}, 4/5)]
            [{0, 1}, {0, 1, 2}, {0}, {1, 2}, {0, 1, 2}] S sup A asup) ∧
      rules.Pairwise (fun a b : Rule => b.confidence ≤ a.confidence) ∧
      (∀ c : ℚ, rules.filter (fun x => decide (x.confidence = c)) =
        L.filter (fun x => decide (x.confidence = c))) :=
  c4_rule_generation _ _ _ (by decide) (by decide) (by decide)

/-! ### Claim C7: rule partition and confidence bounds -/

/-- C7: every rule generated from a table that `find_frequent_itemsets`
produced on the same non-empty transactions (valid parameters) has
non-empty disjoint antecedent and consequent whose union is tracked in
the table with the rule's support, and its confidence lies between
`min_confidence` and `1`. -/
theorem c7_rule_partition (txs : List (Finset ℕ)) (ms mc : ℚ) (ml : ℕ)
    (tbl : Table) (rules : List Rule)
    (hne : txs ≠ []) (hms0 : 0 < ms) (hms1 : ms ≤ 1) (hml : 1 ≤ ml)
    (hfind : find_frequent_itemsets txs ms ml = some tbl)
    (hrules : generate_association_rules tbl txs mc = some rules) :
    ∀ r ∈ rules, r.antecedent ≠ ∅ ∧ r.consequent ≠ ∅ ∧
      Disjoint r.antecedent r.consequent ∧
      (r.antecedent ∪ r.consequent, r.support) ∈ tbl ∧
      mc ≤ r.confidence ∧ r.confidence ≤ 1 := by
  have hN : txs.length ≠ 0 := by simpa [List.length_eq_zero] using hne
  have hNq : (0 : ℚ) < (txs.length : ℚ) := by
    have := Nat.pos_of_ne_zero hN
    exact_mod_cast this
  obtain ⟨tbl', hfind', hnd, hval, hmem⟩ := miner_spec txs ms ml hne hml
  rw [hfind] at hfind'
  obtain rfl : tbl = tbl' := by simpa using hfind'
  have hpos : ∀ p ∈ tbl, 0 < p.2 := by
    rintro ⟨S, v⟩ hSv
    obtain ⟨_, _, hgood⟩ := (hmem S).mp ⟨v, hSv⟩
    have hmul : (0 : ℚ) < (txs.length : ℚ) * ms := mul_pos hNq hms0
    have hvv := hval S v hSv
    rw [hvv]
    exact div_pos (lt_of_lt_of_le hmul hgood.1) hNq
  obtain ⟨L, hL, hmemL⟩ := rulesAux_spec tbl txs mc hN tbl
  rw [generate_association_rules, rulesUnsorted, hL, Option.map_some',
    Option.some_inj] at hrules
  intro r hr
  rw [← hrules, mem_sortByConfDesc, hmemL r] at hr
  obtain ⟨S, sup, A, hS, hcard, hsub, hAne, hAS, hget, hconf, hreq⟩ := hr
  obtain ⟨asup, hAv⟩ := (tblGet_ne_zero_iff hpos).mp hget
  have hgv : tblGet tbl A = asup := tblGet_of_mem hnd hAv
  have hCne : S \ A ≠ ∅ := by
    rw [Ne, Finset.sdiff_eq_empty_iff_subset]
    intro hSA
    exact hAS (Finset.Subset.antisymm hsub hSA)
  have hunion : A ∪ S \ A = S := Finset.union_sdiff_of_subset hsub
  subst hreq
  rw [specRule]
  refine ⟨hAne, hCne, Finset.disjoint_sdiff, ?_, ?_, ?_⟩
  · simpa [hunion] using hS
  · simpa using hconf
  · have hsupv : sup = (containCount txs S : ℚ) / (txs.length : ℚ) :=
      hval S sup hS
    have hasupv : asup = (containCount txs A : ℚ) / (txs.length : ℚ) :=
      hval A asup hAv
    have haspos : 0 < asup := hpos (A, asup) hAv
    have hcnt : containCount txs S ≤ containCount txs A :=
      containCount_mono txs hsub
    have hsup_le : sup ≤ asup := by
      rw [hsupv, hasupv]
      apply (div_le_div_iff_of_pos_right hNq).mpr
      exact_mod_cast hcnt
    show sup / tblGet tbl A ≤ 1
    rw [hgv]
    exact (div_le_one haspos).mpr hsup_le

/-- Witness for C7 at the concrete input
`transactions = [{0,1},{0}]`, `min_support = 1/2`, `max_length = 2`,
`min_confidence = 1/2`, at the generated rule `{1} -> {0}`. -/
theorem c7_rule_partition_witness :
    (⟨{1}, {0}, 1/2, 1, 1⟩ : Rule).antecedent ≠ ∅ ∧
    (⟨{1}, {0}, 1/2, 1, 1⟩ : Rule).consequent ≠ ∅ ∧
    Disjoint (⟨{1}, {0}, 1/2, 1, 1⟩ : Rule).antecedent
      (⟨{1}, {0}, 1/2, 1, 1⟩ : Rule).consequent ∧
    ((⟨{1}, {0}, 1/2, 1, 1⟩ : Rule).antecedent ∪
        (⟨{1}, {0}, 1/2, 1, 1⟩ : Rule).consequent,
      (⟨{1}, {0}, 1/2, 1, 1⟩ : Rule).support) ∈
      [(({0} : Finset ℕ), (1 : ℚ)), ({1}, 1/2), ({0, 1}, 1/2)] ∧
    (1/2 : ℚ) ≤ (⟨{1}, {0}, 1/2, 1, 1⟩ : Rule).confidence ∧
    (⟨{1}, {0}, 1/2, 1, 1⟩ : Rule).confidence ≤ 1 :=
  c7_rule_partition [{0, 1}, {0}] (1/2) (1/2) 2
    [(({0} : Finset ℕ), (1 : ℚ)), ({1}, 1/2), ({0, 1}, 1/2)]
    [(⟨{1}, {0}, 1/2, 1, 1⟩ : Rule), ⟨{0}, {1}, 1/2, 1/2, 1⟩]
    (by decide) (by norm_num) (by norm_num) (by norm_num) (by decide)
    (by decide) ⟨{1}, {0}, 1/2, 1, 1⟩ (by decide)

/-! ### Claim C9: totality of the consequent-support fallback -/

/-- C9: when the table was produced by `find_frequent_itemsets` on the
same non-empty transaction list, `generate_association_rules` never
divides by the zero transaction count (it returns normally); but on an
empty transaction list with a table containing a size-2 itemset whose
antecedent is tracked with positive support and whose consequent is
not, execution reaches `count/len(transactions)` with zero length and
fails (returns `none`, the embedded `ZeroDivisionError`). -/
theorem c9_consequent_fallback (txs : List (Finset ℕ)) (ms mc : ℚ)
    (ml : ℕ) (tbl : Table) (hne : txs ≠ [])
    (hfind : find_frequent_itemsets txs ms ml = some tbl) :
    (generate_association_rules tbl txs mc).isSome = true ∧
    generate_association_rules [(({1, 2} : Finset ℕ), (1/2 : ℚ)), ({1}, 1)]
      [] (1/2) = none := by
  constructor
  · have hN : txs.length ≠ 0 := by simpa [List.length_eq_zero] using hne
    obtain ⟨L, hL, _⟩ := rulesAux_spec tbl txs mc hN tbl
    rw [generate_association_rules, rulesUnsorted, hL, Option.map_some',
      Option.isSome_some]
  · decide

/-- Witness for C9 at the concrete input `transactions = [{1}]`,
`min_support = 1`, `max_length = 1`. -/
theorem c9_consequent_fallback_witness :
    ((generate_association_rules [(({1} : Finset ℕ), (1 : ℚ))] [{1}]
        (1/2)).isSome = true) ∧
    generate_association_rules [(({1, 2} : Finset ℕ), (1/2 : ℚ)), ({1}, 1)]
      [] (1/2) = none :=
  c9_consequent_fallback [{1}] 1 (1/2) 1 _ (by decide) (by decide)

/-! ### Claim C6: empty input is defined, not exceptional -/

/-- C6: for every choice of thresholds, `find_frequent_itemsets` on an
empty transaction list returns the empty table normally (the guarded
division by the transaction count is never reached, so no
division-by-zero `none` arises), and `generate_association_rules` on an
empty table returns the empty rule sequence. -/
theorem c6_empty_input (ms mc : ℚ) (ml : ℕ) (txs : List (Finset ℕ)) :
    find_frequent_itemsets [] ms ml = some [] ∧
    generate_association_rules [] txs mc = some [] :=
  ⟨find_frequent_itemsets_nil ms ml, rfl⟩

/-! ### The recommender -/

theorem mem_candidateRecs {input : Finset ℕ} {rules : List Rule}
    {rec : Recommendation} :
    rec ∈ candidateRecs input rules ↔
      ∃ r ∈ rules, (r.antecedent ⊆ input ∨ input ⊆ r.antecedent) ∧
        r.consequent \ input ≠ ∅ ∧
        rec = ⟨r.consequent \ input, r.confidence, r.lift, r.support,
          r.antecedent⟩ := by
  rw [candidateRecs, List.mem_filterMap]
  constructor
  · rintro ⟨r, hr, hf⟩
    by_cases happ : r.antecedent ⊆ input ∨ input ⊆ r.antecedent
    · rw [if_pos happ] at hf
      by_cases hne : r.consequent \ input ≠ ∅
      · rw [if_pos hne, Option.some_inj] at hf
        exact ⟨r, hr, happ, hne, hf.symm⟩
      · rw [if_neg hne] at hf
        exact absurd hf (by simp)
    · rw [if_neg happ] at hf
      exact absurd hf (by simp)
  · rintro ⟨r, hr, happ, hne, rfl⟩
    exact ⟨r, hr, by rw [if_pos happ, if_pos hne]⟩

theorem updateRec_append :
    ∀ {acc : List Recommendation} {r : Recommendation},
      (∀ x ∈ acc, x.recommended_items ≠ r.recommended_items) →
      updateRec acc r = acc ++ [r]
  | [], r, _ => rfl
  | x :: xs, r, h => by
    rw [updateRec, if_neg (h x (List.mem_cons_self x xs)),
      updateRec_append (fun z hz => h z (List.mem_cons_of_mem x hz))]
    rfl

theorem updateRec_decomp :
    ∀ {acc : List Recommendation} {r : Recommendation},
      r.recommended_items ∈ acc.map Recommendation.recommended_items →
      ∃ p x q, acc = p ++ x :: q ∧
        x.recommended_items = r.recommended_items ∧
        (∀ z ∈ p, z.recommended_items ≠ r.recommended_items) ∧
        updateRec acc r =
          p ++ (if r.confidence > x.confidence then r else x) :: q
  | [], r, h => by simp at h
  | x :: xs, r, h => by
    by_cases hx : x.recommended_items = r.recommended_items
    · exact ⟨[], x, xs, rfl, hx, by simp, by rw [updateRec, if_pos hx]; rfl⟩
    · have hxs : r.recommended_items ∈ xs.map Recommendation.recommended_items := by
        rcases List.mem_map.mp h with ⟨z, hz, hzr⟩
        rcases List.mem_cons.mp hz with rfl | hz'
        · exact absurd hzr hx
        · exact List.mem_map.mpr ⟨z, hz', hzr⟩
      obtain ⟨p, y, q, hsplit, hkey, hp, hupd⟩ := updateRec_decomp hxs
      refine ⟨x :: p, y, q, by rw [hsplit]; rfl, hkey, ?_, ?_⟩
      · intro z hz
        rcases List.mem_cons.mp hz with rfl | hz'
        · exact hx
        · exact hp z hz'
      · rw [updateRec, if_neg hx, hupd]
        rfl

theorem updateRec_step {acc processed : List Recommendation}
    {r : Recommendation}
    (h1 : (acc.map Recommendation.recommended_items).Nodup)
    (h2 : ∀ x ∈ acc, x ∈ processed)
    (h3 : ∀ y ∈ processed, ∃ x ∈ acc,
      x.recommended_items = y.recommended_items)
    (h4 : ∀ x ∈ acc, ∀ y ∈ processed,
      y.recommended_items = x.recommended_items →
        y.confidence ≤ x.confidence) :
    ((updateRec acc r).map Recommendation.recommended_items).Nodup ∧
    (∀ x ∈ updateRec acc r, x ∈ processed ++ [r]) ∧
    (∀ y ∈ processed ++ [r], ∃ x ∈ updateRec acc r,
      x.recommended_items = y.recommended_items) ∧
    (∀ x ∈ updateRec acc r, ∀ y ∈ processed ++ [r],
      y.recommended_items = x.recommended_items →
        y.confidence ≤ x.confidence) := by
  by_cases hkey : r.recommended_items ∈ acc.map Recommendation.recommended_items
  · obtain ⟨p, x, q, hsplit, hxr, hp, hupd⟩ := updateRec_decomp hkey
    set x' : Recommendation := if r.confidence > x.confidence then r else x with hx'
    have hx'key : x'.recommended_items = r.recommended_items := by
      rw [hx']
      by_cases hc : r.confidence > x.confidence
      · rw [if_pos hc]
      · rw [if_neg hc]; exact hxr
    have hx'conf_x : x.confidence ≤ x'.confidence := by
      rw [hx']
      by_cases hc : r.confidence > x.confidence
      · rw [if_pos hc]; exact le_of_lt hc
      · rw [if_neg hc]
    have hx'conf_r : r.confidence ≤ x'.confidence := by
      rw [hx']
      by_cases hc : r.confidence > x.confidence
      · rw [if_pos hc]
      · rw [if_neg hc]; exact le_of_not_lt hc
    have hmapeq : (updateRec acc r).map Recommendation.recommended_items =
        acc.map Recommendation.recommended_items := by
      rw [hupd, hsplit, List.map_append, List.map_append, List.map_cons,
        List.map_cons, hx'key, hxr]
    have hnotq : x.recommended_items ∉ q.map Recommendation.recommended_items := by
      rw [hsplit, List.map_append, List.map_cons] at h1
      have := List.Nodup.of_append_right h1
      exact (List.nodup_cons.mp this).1
    refine ⟨by rw [hmapeq]; exact h1, ?_, ?_, ?_⟩
    · intro z hz
      rw [hupd] at hz
      rcases List.mem_append.mp hz with hzp | hzq
      · exact List.mem_append.mpr (Or.inl (h2 z (by rw [hsplit]; simp [hzp])))
      · rcases List.mem_cons.mp hzq with rfl | hzq'
        · rw [hx']
          by_cases hc : r.confidence > x.confidence
          · rw [if_pos hc]; exact List.mem_append.mpr (Or.inr (by simp))
          · rw [if_neg hc]
            exact List.mem_append.mpr (Or.inl (h2 x (by rw [hsplit]; simp)))
        · exact List.mem_append.mpr (Or.inl (h2 z (by rw [hsplit]; simp [hzq'])))
    · intro y hy
      rcases List.mem_append.mp hy with hyp | hyr
      · obtain ⟨z, hz, hzkey⟩ := h3 y hyp
        rw [hsplit] at hz
        rcases List.mem_append.mp hz with hzp | hzxq
        · exact ⟨z, by rw [hupd]; exact List.mem_append.mpr (Or.inl hzp), hzkey⟩
        · rcases List.mem_cons.mp hzxq with rfl | hzq
          · refine ⟨x', by rw [hupd]; simp, ?_⟩
            rw [hx'key, ← hxr]; exact hzkey
          · exact ⟨z, by rw [hupd]; simp [hzq], hzkey⟩
      · rw [List.mem_singleton.mp hyr]
        exact ⟨x', by rw [hupd]; simp, hx'key⟩
    · intro z hz y hy hykey
      rw [hupd] at hz
      rcases List.mem_append.mp hz with hzp | hzq
      · have hzacc : z ∈ acc := by rw [hsplit]; simp [hzp]
        rcases List.mem_append.mp hy with hyp | hyr
        · exact h4 z hzacc y hyp hykey
        · rw [List.mem_singleton.mp hyr] at hykey ⊢
          exact absurd (hykey ▸ rfl) (Ne.symm (hp z hzp) ∘ Eq.symm ∘ fun h => h)
      · rcases List.mem_cons.mp hzq with rfl | hzq'
        · rcases List.mem_append.mp hy with hyp | hyr
          · have : y.recommended_items = x.recommended_items := by
              rw [hykey, hx'key, ← hxr]
            exact le_trans (h4 x (by rw [hsplit]; simp) y hyp this) hx'conf_x
          · rw [List.mem_singleton.mp hyr]
            exact hx'conf_r
        · have hzacc : z ∈ acc := by rw [hsplit]; simp [hzq']
          rcases List.mem_append.mp hy with hyp | hyr
          · exact h4 z hzacc y hyp hykey
          · rw [List.mem_singleton.mp hyr] at hykey
            exfalso
            apply hnotq
            rw [hxr, hykey]
            exact List.mem_map.mpr ⟨z, hzq', rfl⟩
  · have hfresh : ∀ x ∈ acc, x.recommended_items ≠ r.recommended_items := by
      intro x hx hcontra
      exact hkey (List.mem_map.mpr ⟨x, hx, hcontra⟩)
    rw [updateRec_append hfresh]
    refine ⟨?_, ?_, ?_, ?_⟩
    · rw [List.map_append]
      apply List.Nodup.append h1 (by simp)
      intro a ha hb
      rcases List.mem_map.mp ha with ⟨x, hx, rfl⟩
      rw [List.map_singleton, List.mem_singleton] at hb
      exact hfresh x hx hb
    · intro z hz
      rcases List.mem_append.mp hz with hza | hzr
      · exact List.mem_append.mpr (Or.inl (h2 z hza))
      · exact List.mem_append.mpr (Or.inr hzr)
    · intro y hy
      rcases List.mem_append.mp hy with hyp | hyr
      · obtain ⟨z, hz, hzkey⟩ := h3 y hyp
        exact ⟨z, List.mem_append.mpr (Or.inl hz), hzkey⟩
      · rw [List.mem_singleton.mp hyr]
        exact ⟨r, List.mem_append.mpr (Or.inr (by simp)), rfl⟩
    · intro z hz y hy hykey
      rcases List.mem_append.mp hz with hza | hzr
      · rcases List.mem_append.mp hy with hyp | hyr
        · exact h4 z hza y hyp hykey
        · rw [List.mem_singleton.mp hyr] at hykey
          exact absurd hykey.symm (hfresh z hza)
      · rw [List.mem_singleton.mp hzr] at hykey ⊢
        rcases List.mem_append.mp hy with hyp | hyr
        · obtain ⟨z', hz', hz'key⟩ := h3 y hyp
          exact absurd (hz'key.trans hykey) (hfresh z' hz')
        · rw [List.mem_singleton.mp hyr]

theorem foldl_updateRec_spec :
    ∀ (rem processed acc : List Recommendation),
      (acc.map Recommendation.recommended_items).Nodup →
      (∀ x ∈ acc, x ∈ processed) →
      (∀ y ∈ processed, ∃ x ∈ acc,
        x.recommended_items = y.recommended_items) →
      (∀ x ∈ acc, ∀ y ∈ processed,
        y.recommended_items = x.recommended_items →
          y.confidence ≤ x.confidence) →
      (((rem.foldl updateRec acc).map Recommendation.recommended_items).Nodup ∧
       (∀ x ∈ rem.foldl updateRec acc, x ∈ processed ++ rem) ∧
       (∀ y ∈ processed ++ rem, ∃ x ∈ rem.foldl updateRec acc,
          x.recommended_items = y.recommended_items) ∧
       (∀ x ∈ rem.foldl updateRec acc, ∀ y ∈ processed ++ rem,
          y.recommended_items = x.recommended_items →
            y.confidence ≤ x.confidence))
  | [], processed, acc => fun h1 h2 h3 h4 => by
    rw [List.foldl_nil]
    simp only [List.append_nil]
    exact ⟨h1, h2, h3, h4⟩
  | r :: rem, processed, acc => fun h1 h2 h3 h4 => by
    rw [List.foldl_cons]
    obtain ⟨g1, g2, g3, g4⟩ := updateRec_step (r := r) h1 h2 h3 h4
    have ih := foldl_updateRec_spec rem (processed ++ [r]) (updateRec acc r)
      g1 g2 g3 g4
    rw [List.append_assoc, List.singleton_append] at ih
    exact ih

theorem dedupRecs_spec (l : List Recommendation) :
    ((dedupRecs l).map Recommendation.recommended_items).Nodup ∧
    (∀ x ∈ dedupRecs l, x ∈ l) ∧
    (∀ y ∈ l, ∃ x ∈ dedupRecs l,
      x.recommended_items = y.recommended_items) ∧
    (∀ x ∈ dedupRecs l, ∀ y ∈ l,
      y.recommended_items = x.recommended_items →
        y.confidence ≤ x.confidence) := by
  have h := foldl_updateRec_spec l [] [] (by simp) (by simp) (by simp) (by simp)
  rw [List.nil_append] at h
  exact h

theorem keyGE_of_not_lt {a b : Recommendation} (h : ¬recKeyLT a b) :
    b.confidence < a.confidence ∨
      (b.confidence = a.confidence ∧ b.lift ≤ a.lift) := by
  rw [recKeyLT] at h
  push_neg at h
  obtain ⟨h1, h2⟩ := h
  rcases lt_or_eq_of_le h1 with hlt | heq
  · exact Or.inl hlt
  · exact Or.inr ⟨heq, h2 heq.symm⟩

theorem keyGE_of_lt {a b : Recommendation} (h : recKeyLT a b) :
    a.confidence < b.confidence ∨
      (a.confidence = b.confidence ∧ a.lift ≤ b.lift) := by
  rw [recKeyLT] at h
  exact h.imp id (fun hp => ⟨hp.1, le_of_lt hp.2⟩)

theorem keyGE_trans {a b c : Recommendation}
    (h1 : b.confidence < a.confidence ∨
      (b.confidence = a.confidence ∧ b.lift ≤ a.lift))
    (h2 : c.confidence < b.confidence ∨
      (c.confidence = b.confidence ∧ c.lift ≤ b.lift)) :
    c.confidence < a.confidence ∨
      (c.confidence = a.confidence ∧ c.lift ≤ a.lift) := by
  rcases h1 with h1 | ⟨h1e, h1l⟩
  · rcases h2 with h2 | ⟨h2e, _⟩
    · exact Or.inl (lt_trans h2 h1)
    · exact Or.inl (h2e ▸ h1)
  · rcases h2 with h2 | ⟨h2e, h2l⟩
    · exact Or.inl (h1e ▸ h2)
    · exact Or.inr ⟨h2e.trans h1e, le_trans h2l h1l⟩

theorem insertByKey_perm (r : Recommendation) :
    ∀ l : List Recommendation, List.Perm (insertByKey r l) (r :: l)
  | [] => List.Perm.refl _
  | x :: xs => by
    rw [insertByKey]
    by_cases h : recKeyLT r x
    · rw [if_pos h]
      exact ((insertByKey_perm r xs).cons x).trans (List.Perm.swap r x xs)
    · rw [if_neg h]

theorem sortRecs_perm :
    ∀ l : List Recommendation, List.Perm (sortRecs l) l
  | [] => List.Perm.refl _
  | r :: rs => by
    rw [sortRecs]
    exact (insertByKey_perm r _).trans ((sortRecs_perm rs).cons r)

theorem mem_sortRecs {r : Recommendation} {l : List Recommendation} :
    r ∈ sortRecs l ↔ r ∈ l :=
  (sortRecs_perm l).mem_iff

theorem insertByKey_pairwise {r : Recommendation} :
    ∀ {l : List Recommendation},
      l.Pairwise (fun a b : Recommendation =>
        b.confidence < a.confidence ∨
          (b.confidence = a.confidence ∧ b.lift ≤ a.lift)) →
      (insertByKey r l).Pairwise (fun a b : Recommendation =>
        b.confidence < a.confidence ∨
          (b.confidence = a.confidence ∧ b.lift ≤ a.lift))
  | [], _ => List.pairwise_singleton _ _
  | x :: xs, h => by
    rw [insertByKey]
    obtain ⟨hx, hxs⟩ := List.pairwise_cons.mp h
    by_cases hlt : recKeyLT r x
    · rw [if_pos hlt]
      apply List.pairwise_cons.mpr
      refine ⟨?_, insertByKey_pairwise hxs⟩
      intro y hy
      rcases List.mem_cons.mp ((insertByKey_perm r xs).mem_iff.mp hy) with rfl | hy'
      · exact keyGE_of_lt hlt
      · exact hx y hy'
    · rw [if_neg hlt]
      apply List.pairwise_cons.mpr
      refine ⟨?_, h⟩
      intro y hy
      rcases List.mem_cons.mp hy with rfl | hy'
      · exact keyGE_of_not_lt hlt
      · exact keyGE_trans (keyGE_of_not_lt hlt) (hx y hy')

theorem sortRecs_pairwise :
    ∀ l : List Recommendation,
      (sortRecs l).Pairwise (fun a b : Recommendation =>
        b.confidence < a.confidence ∨
          (b.confidence = a.confidence ∧ b.lift ≤ a.lift))
  | [] => List.Pairwise.nil
  | r :: rs => by
    rw [sortRecs]
    exact insertByKey_pairwise (sortRecs_pairwise rs)

/-! ### Claim C5: recommender contract -/

/-- C5: every recommendation returned by `get_recommendations` (with
`top_n ≥ 0`) comes from an applicable rule (antecedent ⊆ known items or
known items ⊆ antecedent) as the consequent minus the known items
(hence disjoint from them and non-empty), carries the highest
confidence among applicable rules producing the same recommended set,
recommended sets are pairwise distinct, the output is sorted by
`(confidence, lift)` descending, every applicable rule with a non-empty
recommended set is represented in the pre-slice list, and the output is
the first `top_n` of that list. -/
theorem c5_recommender (input : Finset ℕ) (rules : List Rule) (n : ℤ)
    (hn : 0 ≤ n) :
    (∀ rec ∈ get_recommendations input rules n,
      rec.recommended_items ∩ input = ∅) ∧
    (∀ rec ∈ get_recommendations input rules n,
      ∃ r ∈ rules, (r.antecedent ⊆ input ∨ input ⊆ r.antecedent) ∧
        r.consequent \ input ≠ ∅ ∧
        rec = ⟨r.consequent \ input, r.confidence, r.lift, r.support,
          r.antecedent⟩) ∧
    (∀ rec ∈ get_recommendations input rules n, ∀ r ∈ rules,
      (r.antecedent ⊆ input ∨ input ⊆ r.antecedent) →
      r.consequent \ input = rec.recommended_items →
      r.confidence ≤ rec.confidence) ∧
    ((get_recommendations input rules n).map
      Recommendation.recommended_items).Nodup ∧
    (get_recommendations input rules n).Pairwise
      (fun a b : Recommendation => b.confidence < a.confidence ∨
        (b.confidence = a.confidence ∧ b.lift ≤ a.lift)) ∧
    (∀ r ∈ rules, (r.antecedent ⊆ input ∨ input ⊆ r.antecedent) →
      r.consequent \ input ≠ ∅ →
      ∃ rec ∈ recommendationsAll input rules,
        rec.recommended_items = r.consequent \ input) ∧
    get_recommendations input rules n =
      (recommendationsAll input rules).take n.toNat ∧
    (get_recommendations input rules n).length =
      min n.toNat (recommendationsAll input rules).length := by
  obtain ⟨hd1, hd2, hd3, hd4⟩ := dedupRecs_spec (candidateRecs input rules)
  have htake : get_recommendations input rules n =
      (recommendationsAll input rules).take n.toNat := by
    rw [get_recommendations, pySlice, if_pos hn]
  have hout_sub : ∀ rec ∈ get_recommendations input rules n,
      rec ∈ dedupRecs (candidateRecs input rules) := by
    intro rec hrec
    rw [htake] at hrec
    have := List.take_subset n.toNat _ hrec
    rwa [recommendationsAll, mem_sortRecs] at this
  have hout_cand : ∀ rec ∈ get_recommendations input rules n,
      rec ∈ candidateRecs input rules := fun rec hrec =>
    hd2 rec (hout_sub rec hrec)
  refine ⟨?_, ?_, ?_, ?_, ?_, ?_, htake, ?_⟩
  · intro rec hrec
    obtain ⟨r, _, _, _, rfl⟩ := mem_candidateRecs.mp (hout_cand rec hrec)
    exact Finset.sdiff_inter_self input r.consequent
  · intro rec hrec
    exact mem_candidateRecs.mp (hout_cand rec hrec)
  · intro rec hrec r hr happ hkey
    have hy : (⟨r.consequent \ input, r.confidence, r.lift, r.support,
        r.antecedent⟩ : Recommendation) ∈ candidateRecs input rules := by
      apply mem_candidateRecs.mpr
      refine ⟨r, hr, happ, ?_, rfl⟩
      rw [hkey]
      obtain ⟨r', _, _, hne', rfl⟩ :=
        mem_candidateRecs.mp (hout_cand rec hrec)
      exact hne'
    exact hd4 rec (hout_sub rec hrec) _ hy hkey
  · have hperm : List.Perm
        ((recommendationsAll input rules).map Recommendation.recommended_items)
        ((dedupRecs (candidateRecs input rules)).map
          Recommendation.recommended_items) :=
      (sortRecs_perm _).map _
    have hndall : ((recommendationsAll input rules).map
        Recommendation.recommended_items).Nodup :=
      hperm.nodup_iff.mpr hd1
    rw [htake]
    exact List.Nodup.sublist
      ((List.take_sublist n.toNat _).map Recommendation.recommended_items) hndall
  · rw [htake]
    exact (sortRecs_pairwise _).sublist (List.take_sublist _ _)
  · intro r hr happ hne
    have hy : (⟨r.consequent \ input, r.confidence, r.lift, r.support,
        r.antecedent⟩ : Recommendation) ∈ candidateRecs input rules :=
      mem_candidateRecs.mpr ⟨r, hr, happ, hne, rfl⟩
    obtain ⟨x, hx, hxkey⟩ := hd3 _ hy
    exact ⟨x, by rw [recommendationsAll, mem_sortRecs]; exact hx, hxkey⟩
  · rw [htake, List.length_take]

/-- Witness for C5 at `known_items = {0}`,
`rules = [{0} -> {1} with confidence 3/4]`, `top_n = 1`. -/
theorem c5_recommender_witness :
    (∀ rec ∈ get_recommendations {0} [(⟨{0}, {1}, 1/2, 3/4, 1⟩ : Rule)] 1,
      rec.recommended_items ∩ {0} = ∅) ∧
    (∀ rec ∈ get_recommendations {0} [(⟨{0}, {1}, 1/2, 3/4, 1⟩ : Rule)] 1,
      ∃ r ∈ [(⟨{0}, {1}, 1/2, 3/4, 1⟩ : Rule)],
        (r.antecedent ⊆ {0} ∨ ({0} : Finset ℕ) ⊆ r.antecedent) ∧
        r.consequent \ {0} ≠ ∅ ∧
        rec = ⟨r.consequent \ {0}, r.confidence, r.lift, r.support,
          r.antecedent⟩) ∧
    (∀ rec ∈ get_recommendations {0} [(⟨{0}, {1}, 1/2, 3/4, 1⟩ : Rule)] 1,
      ∀ r ∈ [(⟨{0}, {1}, 1/2, 3/4, 1⟩ : Rule)],
        (r.antecedent ⊆ {0} ∨ ({0} : Finset ℕ) ⊆ r.antecedent) →
        r.consequent \ {0} = rec.recommended_items →
        r.confidence ≤ rec.confidence) ∧
    ((get_recommendations {0} [(⟨{0}, {1}, 1/2, 3/4, 1⟩ : Rule)] 1).map
      Recommendation.recommended_items).Nodup ∧
    (get_recommendations {0} [(⟨{0}, {1}, 1/2, 3/4, 1⟩ : Rule)] 1).Pairwise
      (fun a b : Recommendation => b.confidence < a.confidence ∨
        (b.confidence = a.confidence ∧ b.lift ≤ a.lift)) ∧
    (∀ r ∈ [(⟨{0}, {1}, 1/2, 3/4, 1⟩ : Rule)],
      (r.antecedent ⊆ {0} ∨ ({0} : Finset ℕ) ⊆ r.antecedent) →
      r.consequent \ {0} ≠ ∅ →
      ∃ rec ∈ recommendationsAll {0} [(⟨{0}, {1}, 1/2, 3/4, 1⟩ : Rule)],
        rec.recommended_items = r.consequent \ {0}) ∧
    get_recommendations {0} [(⟨{0}, {1}, 1/2, 3/4, 1⟩ : Rule)] 1 =
      (recommendationsAll {0} [(⟨{0}, {1}, 1/2, 3/4, 1⟩ : Rule)]).take
        (1 : ℤ).toNat ∧
    (get_recommendations {0} [(⟨{0}, {1}, 1/2, 3/4, 1⟩ : Rule)] 1).length =
      min (1 : ℤ).toNat
        (recommendationsAll {0} [(⟨{0}, {1}, 1/2, 3/4, 1⟩ : Rule)]).length :=
  c5_recommender {0} [(⟨{0}, {1}, 1/2, 3/4, 1⟩ : Rule)] 1 (by decide)

/-! ### Claim C10: non-positive top_n is silently accepted -/

/-- C10: for every rules list and known-item set, `get_recommendations`
with `top_n = 0` returns the empty list rather than an error, and with
negative `top_n` it returns all deduplicated sorted recommendations
except the last `|top_n|` (Python slice semantics), so a bad `top_n` is
indistinguishable from genuinely empty results. -/
theorem c10_nonpositive_top_n (input : Finset ℕ) (rules : List Rule)
    (n : ℤ) (hneg : n < 0) :
    get_recommendations input rules 0 = [] ∧
    get_recommendations input rules n =
      ((recommendationsAll input rules).reverse.drop (-n).toNat).reverse := by
  constructor
  · rw [get_recommendations, pySlice, if_pos (le_refl (0 : ℤ))]
    rfl
  · rw [get_recommendations, pySlice, if_neg (by omega)]
    rw [List.reverse_drop, List.reverse_reverse, List.length_reverse]

/-- Witness for C10 at `known_items = {0}`, two rules with distinct
recommended sets, `top_n = -1`. -/
theorem c10_nonpositive_top_n_witness :
    get_recommendations {0}
      [(⟨{0}, {1}, 1/2, 3/4, 1⟩ : Rule), ⟨{0}, {2}, 1/2, 7/10, 1⟩] 0 = [] ∧
    get_recommendations {0}
      [(⟨{0}, {1}, 1/2, 3/4, 1⟩ : Rule), ⟨{0}, {2}, 1/2, 7/10, 1⟩] (-1) =
      ((recommendationsAll {0}
        [(⟨{0}, {1}, 1/2, 3/4, 1⟩ : Rule),
          ⟨{0}, {2}, 1/2, 7/10, 1⟩]).reverse.drop (-(-1 : ℤ)).toNat).reverse :=
  c10_nonpositive_top_n {0}
    [(⟨{0}, {1}, 1/2, 3/4, 1⟩ : Rule), ⟨{0}, {2}, 1/2, 7/10, 1⟩] (-1)
    (by decide)

/-! ### Claim C2: parameter validation (refuted — no validation exists) -/

/-- C2 counterexample: with `min_support = 0` (outside `(0,1]`) the
miner performs its full computation and returns a normal, non-empty
table — no `InvalidParameter` error is surfaced and the computation is
not cut short; likewise `get_recommendations` accepts `top_n = 0` and
returns an ordinary empty list. -/
theorem c2_counterexample :
    find_frequent_itemsets [{0}] 0 5 = some [({0}, 1)] ∧
    get_recommendations ∅
      [{antecedent := {0}, consequent := {1}, support := 1/2,
        confidence := 1, lift := 1}] 0 = [] := by
  constructor
  · decide
  · decide

/-- C2 amended: the code performs no parameter validation — every
out-of-range parameter is silently accepted and the operation returns
an ordinary value instead of surfacing an error: the miner returns
normally for every `min_support` and every `max_length` (given
non-empty transactions); `min_support ≤ 0` makes every occurring item's
singleton frequent; `min_support > 1` yields an ordinary empty table;
`max_length = 0` (the value below the documented minimum 1) behaves
exactly like `max_length = 1`; `generate_association_rules` returns
normally for every `min_confidence`, including values outside `(0,1]`;
`get_recommendations` with `top_n = 0` returns the empty list and with
negative `top_n` silently truncates by Python slice semantics. -/
theorem c2_no_validation :
    (∀ (txs : List (Finset ℕ)) (ms : ℚ) (ml : ℕ), txs ≠ [] →
      (find_frequent_itemsets txs ms ml).isSome = true) ∧
    (∀ (txs : List (Finset ℕ)) (ms : ℚ) (ml : ℕ), txs ≠ [] → ms ≤ 0 → 1 ≤ ml →
      ∃ tbl, find_frequent_itemsets txs ms ml = some tbl ∧
        ∀ a t, t ∈ txs → a ∈ t → ∃ v, (({a} : Finset ℕ), v) ∈ tbl) ∧
    (∀ (txs : List (Finset ℕ)) (ms : ℚ) (ml : ℕ), txs ≠ [] → 1 < ms → 1 ≤ ml →
      find_frequent_itemsets txs ms ml = some []) ∧
    (∀ (txs : List (Finset ℕ)) (ms : ℚ),
      find_frequent_itemsets txs ms 0 = find_frequent_itemsets txs ms 1) ∧
    (∀ (tbl : Table) (txs : List (Finset ℕ)) (mc : ℚ), txs ≠ [] →
      (generate_association_rules tbl txs mc).isSome = true) ∧
    (∀ (input : Finset ℕ) (rules : List Rule),
      get_recommendations input rules 0 = []) ∧
    (∀ (input : Finset ℕ) (rules : List Rule) (n : ℤ), n < 0 →
      get_recommendations input rules n =
        ((recommendationsAll input rules).reverse.drop (-n).toNat).reverse) := by
  refine ⟨?_, ?_, ?_, ?_, ?_, ?_, ?_⟩
  · intro txs ms ml hne
    exact find_frequent_itemsets_isSome txs ms ml hne
  · intro txs ms ml hne hms hml
    obtain ⟨tbl, heq, _, _, hmem⟩ := miner_spec txs ms ml hne hml
    refine ⟨tbl, heq, fun a t ht hat => ?_⟩
    apply (hmem {a}).mpr
    refine ⟨by simp, by simpa using hml, ?_, ?_⟩
    · have h1 : (txs.length : ℚ) * ms ≤ 0 :=
        mul_nonpos_of_nonneg_of_nonpos (by positivity) hms
      have h2 : (0 : ℚ) ≤ (containCount txs ({a} : Finset ℕ) : ℚ) := by positivity
      exact le_trans h1 h2
    · intro x hx
      rw [Finset.mem_singleton] at hx
      subst hx
      exact ⟨t, ht, hat⟩
  · intro txs ms ml hne hms hml
    obtain ⟨tbl, heq, _, _, hmem⟩ := miner_spec txs ms ml hne hml
    have hNq : (0 : ℚ) < (txs.length : ℚ) := by
      have := List.length_pos.mpr hne
      exact_mod_cast this
    have htbl : tbl = [] := by
      rw [List.eq_nil_iff_forall_not_mem]
      rintro ⟨S, v⟩ hSv
      obtain ⟨_, _, hcnt, _⟩ := (hmem S).mp ⟨v, hSv⟩
      have hle : (containCount txs S : ℚ) ≤ (txs.length : ℚ) := by
        exact_mod_cast containCount_le_length txs S
      have hgt : (txs.length : ℚ) < (txs.length : ℚ) * ms := by
        have := mul_lt_mul_of_pos_left hms hNq
        simpa using this
      exact absurd (lt_of_lt_of_le hgt hcnt) (not_lt_of_le hle)
    rw [heq, htbl]
  · intro txs ms
    rfl
  · intro tbl txs mc hne
    have hN : txs.length ≠ 0 := by simpa [List.length_eq_zero] using hne
    obtain ⟨L, hL, _⟩ := rulesAux_spec tbl txs mc hN tbl
    rw [generate_association_rules, rulesUnsorted, hL, Option.map_some',
      Option.isSome_some]
  · intro input rules
    rw [get_recommendations, pySlice, if_pos (le_refl 0)]
    rfl
  · intro input rules n hneg
    rw [get_recommendations, pySlice, if_neg (by omega)]
    rw [List.reverse_drop, List.reverse_reverse, List.length_reverse]

/-- Witness for the amended C2, exercising each out-of-range parameter
family at a concrete input: `min_support = 7/2` and `3/2` (above 1) and
`-1` (at or below 0), `max_length = 0` (below 1), `min_confidence = 2`
(above 1), `top_n = 0` and `top_n = -2`. -/
theorem c2_no_validation_witness :
    ((find_frequent_itemsets [{0}] (7/2) 5).isSome = true) ∧
    (∃ tbl, find_frequent_itemsets [{0}] (-1) 1 = some tbl ∧
      ∀ a t, t ∈ [({0} : Finset ℕ)] → a ∈ t → ∃ v, (({a} : Finset ℕ), v) ∈ tbl) ∧
    (find_frequent_itemsets [{0}] (3/2) 5 = some []) ∧
    (find_frequent_itemsets [{0}] (1/2) 0 = find_frequent_itemsets [{0}] (1/2) 1) ∧
    ((generate_association_rules [(({0} : Finset ℕ), (1 : ℚ))] [{0}] 2).isSome
      = true) ∧
    (get_recommendations ∅ [] 0 = []) ∧
    (get_recommendations {0} [(⟨{0}, {1}, 1/2, 3/4, 1⟩ : Rule)] (-2) =
      ((recommendationsAll {0} [(⟨{0}, {1}, 1/2, 3/4, 1⟩ : Rule)]).reverse.drop
        (-(-2 : ℤ)).toNat).reverse) :=
  ⟨c2_no_validation.1 [{0}] (7/2) 5 (by decide),
   c2_no_validation.2.1 [{0}] (-1) 1 (by decide) (by norm_num) (le_refl 1),
   c2_no_validation.2.2.1 [{0}] (3/2) 5 (by decide) (by norm_num) (by norm_num),
   c2_no_validation.2.2.2.1 [{0}] (1/2),
   c2_no_validation.2.2.2.2.1 [(({0} : Finset ℕ), (1 : ℚ))] [{0}] 2 (by decide),
   c2_no_validation.2.2.2.2.2.1 ∅ [],
   c2_no_validation.2.2.2.2.2.2 {0} [(⟨{0}, {1}, 1/2, 3/4, 1⟩ : Rule)] (-2)
     (by decide)⟩

/-! ### Claim C8: statelessness (refuted — item_support leaks) -/

/-- C8 counterexample: the `item_support` field after running
`find_frequent_itemsets` on `[{1}]` depends on whether an earlier call
on `[{0}]` was made — the field retains the earlier call's entry
`(0, 1)`, so it is not a function of the most recent call's arguments
alone. -/
theorem c8_counterexample :
    ((find_frequent_itemsetsST initState [{0}] 1 1).bind
        (fun p => find_frequent_itemsetsST p.1 [{1}] 1 1)).map
        (fun p => p.1.item_support) = some [(0, 1), (1, 1)] ∧
    (find_frequent_itemsetsST initState [{1}] 1 1).map
        (fun p => p.1.item_support) = some [(1, 1)] ∧
    ((find_frequent_itemsetsST initState [{0}] 1 1).bind
        (fun p => find_frequent_itemsetsST p.1 [{1}] 1 1)).map
        (fun p => p.1.item_support) ≠
      (find_frequent_itemsetsST initState [{1}] 1 1).map
        (fun p => p.1.item_support) := by
  refine ⟨by decide, by decide, by decide⟩

/-- C8 amended: the returned table and the `frequent_itemsets` field
depend only on the most recent call's arguments (they are reassigned
fresh on every call), but `item_support` is never cleared: it is the
previous dict updated in place, so entries from earlier calls
survive. -/
theorem c8_result_stateless :
    ∀ (st st' : ECLATState) (txs : List (Finset ℕ)) (ms : ℚ) (ml : ℕ),
      (find_frequent_itemsetsST st txs ms ml).map
        (fun p => (p.1.frequent_itemsets, p.2)) =
      (find_frequent_itemsetsST st' txs ms ml).map
        (fun p => (p.1.frequent_itemsets, p.2)) := by
  intro st st' txs ms ml
  rw [find_frequent_itemsetsST, find_frequent_itemsetsST]
  cases freq1 txs ((txs.length : ℚ) * ms) with
  | none => rfl
  | some f1 =>
    cases find_frequent_itemsets txs ms ml with
    | none => rfl
    | some tbl => rfl

end Eclat
